import Mathlib

/-!
The ofxIlda frame processing pipeline.

A shallow embedding of `ofxIlda::Frame` (`src/ofxIldaFrame.h`): the path store, the path
processor (`update`), the point transformer (`transformPoint`) and the stream assembler
(`updateFinalPoints`), followed by theorems about them.

Conventions of the embedding.
* `int` values are unbounded `Int`; a finite `float` value is the rational (`ℚ`) it denotes.
* The point transformer is given twice. `transformPoint` reads the source's arithmetic as
  exact arithmetic on rationals. `transformPointF32` reads it as IEEE single precision:
  every `+`, `-` and `*` of the source is followed by `round32` (round to nearest, ties to
  even, subnormal spacing `2^-149`); when a rounded result falls outside the finite float32
  range (the source goes on with an infinity or NaN) the float32 reading gives `none` and
  says nothing about the run. Theorems on wrapped, scaled or shifted coordinates are stated
  on the float32 reading. The exact reading is kept for the stream assembler, which treats
  the transformed point as a whole, and for capping and the unit-square scenario, where
  every value involved is exact in float32.
* The path processor keeps lengths and spacing as exact rationals.
* Reading a `vector` past its end is undefined behaviour in the source; here such a read
  makes the operation return `none`.
* The polyline algorithms of the host library (`getSmoothed`, `simplify`, `getPerimeter`,
  `getResampledBySpacing`) are not part of the source file; the pipeline takes them as a
  parameter (`PolyPrims`).
-/

namespace ofxIlda

/-! ## Data model -/

/-- Modelled from the spec: the type `ofPoint` is declared by the host library, not by the
source file; the spec describes a path vertex as a 2D point in normalized space. -/
structure ofPoint where
  x : ℚ
  y : ℚ
  deriving DecidableEq, Repr

/-- Modelled from the spec: `ofVec2f` (host library), a pair of floats. -/
structure ofVec2f where
  x : ℚ
  y : ℚ
  deriving DecidableEq, Repr

/-- Source `ofVec2f::lengthSquared()`, in exact arithmetic (`lengthSquaredF32` is the float32
reading). -/
def ofVec2f.lengthSquared (v : ofVec2f) : ℚ := v.x * v.x + v.y * v.y

/-- Modelled from the spec: `ofFloatColor` (host library), an RGBA float tuple. -/
structure ofFloatColor where
  r : ℚ
  g : ℚ
  b : ℚ
  a : ℚ
  deriving DecidableEq, Repr

/-- Modelled from the spec: `ofxIlda::Point` is declared in `ofxIldaPoint.h`, which is not
among the sources; the spec describes an output point as a 2D position with an RGBA colour.
`Point.mk p c` stands for the constructor call `Point(p, c)`. -/
structure Point where
  position : ofPoint
  color : ofFloatColor
  deriving DecidableEq, Repr

/-- Modelled from the spec: `ofPolyline` (host library), an ordered sequence of vertices
together with its open/closed topology flag. -/
structure ofPolyline where
  vertices : List ofPoint
  closed : Bool
  deriving DecidableEq, Repr

/-- Source `ofPolyline::size()`. -/
def ofPolyline.size (p : ofPolyline) : Nat := p.vertices.length

/-- Source `ofPolyline()`: the empty, open polyline. -/
def ofPolyline.empty : ofPolyline := ⟨[], false⟩

/-- Source `ofPolyline(points)`: an open polyline through the given points. -/
def ofPolyline.ofPoints (pts : List ofPoint) : ofPolyline := ⟨pts, false⟩

/-- The polyline primitives of the host library that `Frame::update` calls. They are
deterministic functions of their arguments. -/
structure PolyPrims where
  getSmoothed : ofPolyline → Int → ofPolyline
  simplify : ofPolyline → ℚ → ofPolyline
  getPerimeter : ofPolyline → ℚ
  getResampledBySpacing : ofPolyline → ℚ → ofPolyline

/-- The block `params.path` of the source. -/
structure PathParams where
  smoothAmount : Int
  optimizeTolerance : ℚ
  collapse : Bool
  targetPointCount : Int
  spacing : ℚ
  deriving DecidableEq, Repr

/-- The block `params.draw` of the source. -/
structure DrawParams where
  lines : Bool
  points : Bool
  pointNumbers : Bool
  deriving DecidableEq, Repr

/-- The block `params.output.transform` of the source. -/
structure TransformParams where
  doFlipX : Bool
  doFlipY : Bool
  offset : ofVec2f
  scale : ofVec2f
  deriving DecidableEq, Repr

/-- The block `params.output` of the source. -/
structure OutputParams where
  color : ofFloatColor
  blankCount : Int
  endCount : Int
  doCapX : Bool
  doCapY : Bool
  transform : TransformParams
  deriving DecidableEq, Repr

/-- The block `params` of the source. -/
structure Params where
  path : PathParams
  draw : DrawParams
  output : OutputParams
  deriving DecidableEq, Repr

/-- The block `stats` of the source. -/
structure Stats where
  pointCountOrig : Int
  pointCountProcessed : Int
  deriving DecidableEq, Repr

/-- The state of a `Frame` object: its public parameter and statistics blocks and its four
protected vectors. -/
structure Frame where
  params : Params
  stats : Stats
  origPolys : List ofPolyline
  processedPolys : List ofPolyline
  points : List Point
  processedPolysColor : List ofFloatColor
  deriving DecidableEq, Repr

/-! ## Construction -/

/-- Source `Frame::setDefaultParams`: the parameter block it leaves behind. -/
def defaultParams : Params :=
  { path := { smoothAmount := 0, optimizeTolerance := 0, collapse := false,
              targetPointCount := 500, spacing := 0 }
    draw := { lines := true, points := true, pointNumbers := false }
    output := { color := ⟨1, 1, 1, 1⟩, blankCount := 30, endCount := 30,
                doCapX := false, doCapY := false,
                transform := { doFlipX := false, doFlipY := false,
                               offset := ⟨0, 0⟩, scale := ⟨1, 1⟩ } } }

/-- Source `Frame::setDefaultParams`: zeroes `params` and `stats`, then sets the defaults. -/
def Frame.setDefaultParams (s : Frame) : Frame :=
  { s with params := defaultParams, stats := ⟨0, 0⟩ }

/-- Source `Frame::Frame()`: all vectors empty, then `setDefaultParams()`. -/
def Frame.new : Frame :=
  Frame.setDefaultParams
    { params := defaultParams, stats := ⟨0, 0⟩, origPolys := [], processedPolys := [],
      points := [], processedPolysColor := [] }

/-! ## Point transformer -/

/-- The `// flip` block of `transformPoint`. -/
def flipPoint (t : TransformParams) (p : ofPoint) : ofPoint :=
  let p := if t.doFlipX then { p with x := 1 - p.x } else p
  let p := if t.doFlipY then { p with y := 1 - p.y } else p
  p

/-- The `// scale` block of `transformPoint`: scaling about the centre, guarded by
`scale.lengthSquared() > 0`, in exact arithmetic (`scalePointF32` is the float32 reading). -/
def scalePoint (t : TransformParams) (p : ofPoint) : ofPoint :=
  if t.scale.lengthSquared > 0 then
    let p : ofPoint := ⟨p.x - 1/2, p.y - 1/2⟩
    let p : ofPoint := ⟨p.x * t.scale.x, p.y * t.scale.y⟩
    let p : ofPoint := ⟨p.x + 1/2, p.y + 1/2⟩
    p
  else p

/-- The `// offset` block of `transformPoint`. -/
def offsetPoint (t : TransformParams) (p : ofPoint) : ofPoint :=
  ⟨p.x + t.offset.x, p.y + t.offset.y⟩

/-- The value of `p` in `transformPoint` when control reaches the `// cap or wrap` block. -/
def beforeCapOrWrap (params : Params) (p : ofPoint) : ofPoint :=
  offsetPoint params.output.transform
    (scalePoint params.output.transform (flipPoint params.output.transform p))

/-- One axis of the `// cap or wrap` block of `transformPoint`; the source repeats it for
`p.x` with `doCapX` and for `p.y` with `doCapY`. The wrap branches are in exact arithmetic
(`capOrWrapF32` is the float32 reading); the cap branches are the same in both. -/
def capOrWrap (doCap : Bool) (c : ℚ) : ℚ :=
  if c < 0 then
    if doCap then 0 else 1 + c - (⌈c⌉ : ℚ)
  else if c > 1 then
    if doCap then 1 else c - (⌊c⌋ : ℚ)
  else c

/-- Source `Frame::transformPoint`. -/
def transformPoint (params : Params) (p : ofPoint) : ofPoint :=
  let p := beforeCapOrWrap params p
  let p := { p with x := capOrWrap params.output.doCapX p.x }
  let p := { p with y := capOrWrap params.output.doCapY p.y }
  p

/-! ## Stream assembler -/

/-- A dwell loop of `updateFinalPoints`:
`for(int n=0; n<count; n++) points.push_back(pt);`. -/
def pushRepeat (points : List Point) (count : Int) (pt : Point) : List Point :=
  (List.range count.toNat).foldl (fun acc _ => acc ++ [pt]) points

/-- The `// add points` loop of `updateFinalPoints`:
`for(int j=0; j<poly.size(); j++) points.push_back(Point(transformPoint(poly[j]), pcolor));`. -/
def pushVertices (params : Params) (points : List Point) (poly : ofPolyline)
    (pcolor : ofFloatColor) : List Point :=
  poly.vertices.foldl (fun acc v => acc ++ [Point.mk (transformPoint params v) pcolor]) points

/-- The body of the path loop of `updateFinalPoints` for one path `poly` with colour `pcolor`,
appending to the output vector `points`. -/
def emitPoly (params : Params) (points : List Point) (poly : ofPolyline)
    (pcolor : ofFloatColor) : List Point :=
  match poly.vertices with
  | [] => points
  | v :: vs =>
    let startPoint := transformPoint params v
    let endPoint := transformPoint params ((v :: vs).getLast (List.cons_ne_nil v vs))
    -- blanking at start
    let points := pushRepeat points params.output.blankCount (Point.mk startPoint ⟨0, 0, 0, 0⟩)
    -- repeat at start
    let points := pushRepeat points params.output.endCount (Point.mk startPoint pcolor)
    -- add points
    let points := pushVertices params points poly pcolor
    -- repeat at end
    let points := pushRepeat points params.output.endCount (Point.mk endPoint pcolor)
    -- blanking at end
    let points := pushRepeat points params.output.blankCount (Point.mk endPoint ⟨0, 0, 0, 0⟩)
    points

/-- The path loop of `updateFinalPoints` over the indices `0 .. processedPolys.size()-1`,
starting from the cleared output vector. Both `processedPolys[i]` and `processedPolysColor[i]`
are read at every index; a read past the end gives `none`. -/
def assemblePoints (params : Params) (polys : List ofPolyline) (colors : List ofFloatColor) :
    Option (List Point) :=
  (List.range polys.length).foldlM
    (fun points i => do
      let poly ← polys[i]?
      let pcolor ← colors[i]?
      pure (emitPoly params points poly pcolor))
    []

/-- Source `Frame::updateFinalPoints`. -/
def Frame.updateFinalPoints (s : Frame) : Option Frame := do
  let points ← assemblePoints s.params s.processedPolys s.processedPolysColor
  pure { s with points := points }

/-! ## Path processor -/

/-- Conversion of a `float` to `int` (truncation toward zero), as performed by
`pathLengths.push_back(l)`. -/
def truncToInt (l : ℚ) : Int := if l < 0 then ⌈l⌉ else ⌊l⌋

/-- The local state of the first loop of `update`: the paths processed so far, `totalLength`
and `pathLengths`. -/
structure LoopState where
  polys : List ofPolyline
  totalLength : ℚ
  pathLengths : List Int

/-- The smoothing and simplification statements of the first loop of `update`, for a path
that passed the `processedPolys[i].size()` test. -/
def smoothSimplify (P : PolyPrims) (path : PathParams) (poly : ofPolyline) : ofPolyline :=
  let poly := if path.smoothAmount > 0 then P.getSmoothed poly path.smoothAmount else poly
  let poly := if path.optimizeTolerance > 0 then P.simplify poly path.optimizeTolerance else poly
  poly

/-- One iteration of the first loop of `update` on the path `poly = processedPolys[i]`. -/
def processStep (P : PolyPrims) (path : PathParams) (st : LoopState) (poly : ofPolyline) :
    LoopState :=
  if poly.size ≠ 0 then
    let poly := smoothSimplify P path poly
    if path.targetPointCount > 0 then
      let l := P.getPerimeter poly
      { polys := st.polys ++ [poly], totalLength := st.totalLength + l,
        pathLengths := st.pathLengths ++ [truncToInt l] }
    else
      { st with polys := st.polys ++ [poly] }
  else
    { st with polys := st.polys ++ [poly], pathLengths := st.pathLengths ++ [0] }

/-- The first loop of `update`, run over the copy `processedPolys = origPolys`. -/
def processLoop (P : PolyPrims) (path : PathParams) (polys : List ofPolyline) : LoopState :=
  polys.foldl (processStep P path) ⟨[], 0, []⟩

/-- The `// get stats` loop of `update`: it runs over the indices of `processedPolys` and
reads `origPolys[i]` and `processedPolys[i]`; a read past the end gives `none`. -/
def computeStats (origPolys processedPolys : List ofPolyline) : Option Stats :=
  (List.range processedPolys.length).foldlM
    (fun (st : Stats) i => do
      let o ← origPolys[i]?
      let p ← processedPolys[i]?
      pure { pointCountOrig := st.pointCountOrig + (o.size : Int),
             pointCountProcessed := st.pointCountProcessed + (p.size : Int) })
    ⟨0, 0⟩

/-- Source `Frame::update`. -/
def Frame.update (P : PolyPrims) (s : Frame) : Option Frame := do
  let st := processLoop P s.params.path s.origPolys
  -- calculate spacing based on desired total number of points
  let spacing :=
    if s.params.path.targetPointCount > 0 ∧ st.totalLength > 0 then
      st.totalLength / (s.params.path.targetPointCount : ℚ)
    else s.params.path.spacing
  -- resample paths based on spacing
  let processedPolys :=
    if spacing ≠ 0 then st.polys.map (fun poly => P.getResampledBySpacing poly spacing)
    else st.polys
  -- get stats
  let stats ← computeStats s.origPolys processedPolys
  Frame.updateFinalPoints
    { s with params := { s.params with path := { s.params.path with spacing := spacing } }
             stats := stats
             processedPolys := processedPolys }

/-! ## Path store -/

/-- Source `Frame::clear`. -/
def Frame.clear (s : Frame) : Frame :=
  { s with origPolys := [], processedPolys := [], processedPolysColor := [] }

/-- Source `Frame::size`. -/
def Frame.size (s : Frame) : Int := (s.origPolys.length : Int)

/-- Source `Frame::addPoly(const ofPolyline&)`: the state it leaves; the returned reference is to the
new last element of `origPolys`. -/
def Frame.addPoly (s : Frame) (poly : ofPolyline) : Frame :=
  { s with origPolys := s.origPolys ++ [poly]
           processedPolysColor := s.processedPolysColor ++ [s.params.output.color] }

/-- Source `Frame::addPoly()`. -/
def Frame.addPolyEmpty (s : Frame) : Frame := s.addPoly ofPolyline.empty

/-- Source `Frame::addPoly(const vector<ofPoint>)`. -/
def Frame.addPolyPoints (s : Frame) (pts : List ofPoint) : Frame :=
  s.addPoly (ofPolyline.ofPoints pts)

/-- Source `Frame::getLastPoly`: the state it leaves (it adds an empty path when there is none). -/
def Frame.getLastPoly (s : Frame) : Frame :=
  if s.origPolys.isEmpty then s.addPolyEmpty else s

/-- A call on the public interface of a frame. `setParams` stands for the caller writing the
public `params` block. -/
inductive Op where
  | addPoly (poly : ofPolyline)
  | getLastPoly
  | clear
  | update
  | updateFinalPoints
  | setParams (params : Params)

/-- The effect of one call. -/
def Op.apply (P : PolyPrims) (s : Frame) : Op → Option Frame
  | .addPoly poly => some (s.addPoly poly)
  | .getLastPoly => some s.getLastPoly
  | .clear => some s.clear
  | .update => s.update P
  | .updateFinalPoints => s.updateFinalPoints
  | .setParams params => some { s with params := params }

/-- The effect of a sequence of calls, first to last. -/
def runOps (P : PolyPrims) (ops : List Op) (s : Frame) : Option Frame :=
  ops.foldlM (Op.apply P) s

/-! ## Specification-side definitions -/

/-- The fully transparent colour `ofFloatColor(0, 0, 0, 0)` of a blank point. -/
def blankColor : ofFloatColor := ⟨0, 0, 0, 0⟩

/-- The segment the spec assigns to one processed path with colour `c`, for dwell counts
`b` (blank) and `e` (end): nothing for an empty path, and otherwise `b` blank copies of the
transformed first vertex, `e` coloured copies of it, every transformed vertex in order,
`e` coloured copies of the transformed last vertex and `b` blank copies of it. -/
def segmentSpec (params : Params) (b e : Nat) (poly : ofPolyline) (c : ofFloatColor) :
    List Point :=
  match poly.vertices with
  | [] => []
  | v :: vs =>
    List.replicate b (Point.mk (transformPoint params v) blankColor)
      ++ List.replicate e (Point.mk (transformPoint params v) c)
      ++ (v :: vs).map (fun w => Point.mk (transformPoint params w) c)
      ++ List.replicate e
          (Point.mk (transformPoint params ((v :: vs).getLast (List.cons_ne_nil v vs))) c)
      ++ List.replicate b
          (Point.mk (transformPoint params ((v :: vs).getLast (List.cons_ne_nil v vs)))
            blankColor)

/-- The concatenation, in path order, of the spec segments of the paths `polys` with the
colours `colors` at the same indices. -/
def finalPointsSpec (params : Params) (b e : Nat) (polys : List ofPolyline)
    (colors : List ofFloatColor) : List Point :=
  (List.zipWith (segmentSpec params b e) polys colors).flatten

/-- The number of entries a non-empty path of `n` vertices contributes for the signed dwell
counts `blankCount` and `endCount`, written with the negative counts read as zero. -/
def segmentCount (blankCount endCount : Int) (n : Nat) : Int :=
  2 * max 0 blankCount + 2 * max 0 endCount + (n : Int)

/-- The path that leaves the first loop of `update` at one index: a non-empty path after the
smoothing and simplification stages, an empty path as it is. -/
def stagedPoly (P : PolyPrims) (path : PathParams) (poly : ofPolyline) : ofPolyline :=
  if poly.size ≠ 0 then smoothSimplify P path poly else poly

/-- The total length `L` of the spec: the sum, over the non-empty paths, of the perimeter of
the path after the smoothing and simplification stages. -/
def totalLengthSpec (P : PolyPrims) (path : PathParams) (polys : List ofPolyline) : ℚ :=
  ((polys.filter (fun p => decide (p.size ≠ 0))).map
    (fun p => P.getPerimeter (smoothSimplify P path p))).sum

/-- The spacing in force when `update` reaches its resampling step: `L / targetPointCount`
when `targetPointCount > 0` and `L > 0`, the stored spacing otherwise. -/
def spacingAfter (P : PolyPrims) (path : PathParams) (polys : List ofPolyline) : ℚ :=
  if path.targetPointCount > 0 ∧ totalLengthSpec P path polys > 0 then
    totalLengthSpec P path polys / (path.targetPointCount : ℚ)
  else path.spacing

/-- The processed paths a pass derives from the original paths `polys`: every staged path,
resampled by the spacing in force when that spacing is not zero. -/
def processedSpec (P : PolyPrims) (path : PathParams) (polys : List ofPolyline) :
    List ofPolyline :=
  if spacingAfter P path polys ≠ 0 then
    polys.map (fun p => P.getResampledBySpacing (stagedPoly P path p)
      (spacingAfter P path polys))
  else polys.map (stagedPoly P path)

/-- The sum of the point counts of a list of paths. -/
def pointCount (polys : List ofPolyline) : Int :=
  (polys.map (fun p => (p.size : Int))).sum

/-- The state a processing pass leaves behind, written out field by field: the spacing in
force, the two point counts, the processed paths and the final point list assembled from
them; the original paths, the colours and every other parameter are those of `s`. -/
def Frame.afterPass (P : PolyPrims) (s : Frame) : Frame :=
  { s with
    params := { s.params with
      path := { s.params.path with spacing := spacingAfter P s.params.path s.origPolys } }
    stats := ⟨pointCount s.origPolys, pointCount (processedSpec P s.params.path s.origPolys)⟩
    processedPolys := processedSpec P s.params.path s.origPolys
    points := finalPointsSpec
      { s.params with
        path := { s.params.path with spacing := spacingAfter P s.params.path s.origPolys } }
      s.params.output.blankCount.toNat s.params.output.endCount.toNat
      (processedSpec P s.params.path s.origPolys) s.processedPolysColor }

/-- The class invariant of the path store: one colour per original path, and no more
processed paths than original ones. -/
def Frame.Aligned (s : Frame) : Prop :=
  s.processedPolysColor.length = s.origPolys.length
    ∧ s.processedPolys.length ≤ s.origPolys.length

/-! ## Sample data -/

/-- A sample vertex list: the three sides of the unit square from `(0,0)` to `(0,1)`. -/
def squarePoints : List ofPoint := [⟨0, 0⟩, ⟨1, 0⟩, ⟨1, 1⟩, ⟨0, 1⟩]

/-- The sum of the axis-parallel distances between consecutive vertices; on a path whose
segments are all parallel to an axis this is its Euclidean length. -/
def axisLength : List ofPoint → ℚ
  | [] => 0
  | [_] => 0
  | v :: w :: rest => |w.x - v.x| + |w.y - v.y| + axisLength (w :: rest)

/-- A sample set of polyline primitives for evaluating the pipeline on concrete inputs:
smoothing and simplification return the path as it is, the perimeter is `axisLength`, and
resampling keeps the first vertex only. -/
def samplePrims : PolyPrims :=
  { getSmoothed := fun p _ => p
    simplify := fun p _ => p
    getPerimeter := fun p => axisLength p.vertices
    getResampledBySpacing := fun p _ => { p with vertices := p.vertices.take 1 } }

/-- A sample vertex list running seven unit steps round the unit square. -/
def longPoints : List ofPoint :=
  [⟨0, 0⟩, ⟨1, 0⟩, ⟨1, 1⟩, ⟨0, 1⟩, ⟨0, 0⟩, ⟨1, 0⟩, ⟨1, 1⟩, ⟨0, 1⟩]

/-- A frame with two added paths, of perimeter 3 and 7, and `targetPointCount = 100`. -/
def twoPathFrame : Frame :=
  let s : Frame :=
    { Frame.new with
      params := { defaultParams with
        path := { defaultParams.path with targetPointCount := 100, spacing := 5 } } }
  (s.addPolyPoints squarePoints).addPolyPoints longPoints

/-- A frame with one added path and path parameters `0, 0, 0` and `spacing = -1`. -/
def negSpacingFrame : Frame :=
  let s : Frame :=
    { Frame.new with
      params := { defaultParams with
        path := { defaultParams.path with targetPointCount := 0, spacing := -1 } } }
  s.addPolyPoints squarePoints

/-- A frame with one added path and every path parameter zero. -/
def disabledFrame : Frame :=
  let s : Frame :=
    { Frame.new with
      params := { defaultParams with
        path := { defaultParams.path with targetPointCount := 0 } } }
  s.addPolyPoints squarePoints


/-- A frame holding one single-vertex path, original and processed, with `blankCount = -1`
and `endCount = 0`. -/
def negBlankFrame : Frame :=
  { Frame.new with
    params := { defaultParams with
      output := { defaultParams.output with blankCount := -1, endCount := 0 } }
    origPolys := [ofPolyline.ofPoints [⟨1/2, 1/2⟩]]
    processedPolys := [ofPolyline.ofPoints [⟨1/2, 1/2⟩]]
    processedPolysColor := [⟨1, 1, 1, 1⟩] }

/-- A frame holding the square path as its one path, original and processed, with
`blankCount = 2` and `endCount = 1`. -/
def squareFrame : Frame :=
  { Frame.new with
    params := { defaultParams with
      output := { defaultParams.output with blankCount := 2, endCount := 1 } }
    origPolys := [ofPolyline.ofPoints squarePoints]
    processedPolys := [ofPolyline.ofPoints squarePoints]
    processedPolysColor := [⟨1, 1, 1, 1⟩] }

/-- The default configuration with capping switched on for both axes. -/
def cappedParams : Params :=
  { defaultParams with output := { defaultParams.output with doCapX := true, doCapY := true } }

/-- The unit-square scenario of the spec: a newly constructed frame whose parameters are then
set to `smoothAmount = 0`, `optimizeTolerance = 0`, `targetPointCount = 0`, `spacing = 0`,
`blankCount = 2`, `endCount = 1`, to which the path `(0,0),(1,0),(1,1),(0,1)` is added. -/
def scenarioFrame : Frame :=
  let s : Frame :=
    { Frame.new with
      params := { defaultParams with
        path := { defaultParams.path with
          smoothAmount := 0, optimizeTolerance := 0, targetPointCount := 0, spacing := 0 }
        output := { defaultParams.output with blankCount := 2, endCount := 1 } } }
  s.addPolyPoints squarePoints

/-- The entries that one run of the path-loop body of `updateFinalPoints` appends to the
output vector `points` for the path `poly` with colour `pcolor`. -/
def emittedSegment (params : Params) (points : List Point) (poly : ofPolyline)
    (pcolor : ofFloatColor) : List Point :=
  (emitPoly params points poly pcolor).drop points.length

/-- The leading blank-dwell entries of a path segment: its first `blankCount` entries. -/
def leadingBlanks (params : Params) (seg : List Point) : List Point :=
  seg.take params.output.blankCount.toNat

/-- The trailing blank-dwell entries of a path segment: its last `blankCount` entries. -/
def trailingBlanks (params : Params) (seg : List Point) : List Point :=
  seg.drop (seg.length - params.output.blankCount.toNat)

/-- The configuration `params` with the output colour replaced by `color`. -/
def withOutputColor (params : Params) (color : ofFloatColor) : Params :=
  { params with output := { params.output with color := color } }

/-- The configuration `params` with the transform scale replaced by `scale`. -/
def withScale (params : Params) (scale : ofVec2f) : Params :=
  { params with
    output := { params.output with
      transform := { params.output.transform with scale := scale } } }

/-- The visible (non-blank) entries of a path segment with `b` blank-dwell entries at each
end: what is left after the first `b` and the last `b` entries are removed. -/
def visiblePoints (b : Nat) (seg : List Point) : List Point :=
  (seg.drop b).take (seg.length - 2 * b)

/-- The frame `s` after the caller has written `params` to its public parameter block. -/
def Frame.withParams (s : Frame) (params : Params) : Frame :=
  { s with params := params }

/-- The frame `s` with `params.path.spacing` replaced by `spacing`, all else equal. -/
def Frame.withSpacing (s : Frame) (spacing : ℚ) : Frame :=
  { s with params := { s.params with path := { s.params.path with spacing := spacing } } }

/-- A frame with the default `targetPointCount = 500`, the given stored spacing and one
added path consisting of the single vertex `(1/2, 1/2)`, whose perimeter is zero. -/
def pointFrame (spacing : ℚ) : Frame :=
  ((Frame.new).withSpacing spacing).addPolyPoints [⟨1/2, 1/2⟩]

/-- Stage S1 of the spec: smoothing with `smoothAmount` when `smoothAmount > 0`, the
identity otherwise. -/
def stageSmooth (P : PolyPrims) (path : PathParams) (p : ofPolyline) : ofPolyline :=
  if path.smoothAmount > 0 then P.getSmoothed p path.smoothAmount else p

/-- Stage S2 of the spec: simplification with `optimizeTolerance` when
`optimizeTolerance > 0`, the identity otherwise. -/
def stageSimplify (P : PolyPrims) (path : PathParams) (p : ofPolyline) : ofPolyline :=
  if path.optimizeTolerance > 0 then P.simplify p path.optimizeTolerance else p

/-- Stage R of the spec: resampling by the final spacing value when resampling is enabled
(the final spacing is not zero), the identity otherwise. -/
def stageResample (P : PolyPrims) (spacing : ℚ) (p : ofPolyline) : ofPolyline :=
  if spacing ≠ 0 then P.getResampledBySpacing p spacing else p

/-- The processed path the spec assigns to the original path `p` for the final spacing
value `spacing`: `R(S2(S1(p)))` for a non-empty path, `R(p)` for an empty one. -/
def stageOrderSpec (P : PolyPrims) (path : PathParams) (spacing : ℚ) (p : ofPolyline) :
    ofPolyline :=
  if p.size ≠ 0 then stageResample P spacing (stageSimplify P path (stageSmooth P path p))
  else stageResample P spacing p

/-- The frame `s` with `params.output.blankCount` replaced by `n`, all else equal. -/
def Frame.withBlankCount (s : Frame) (n : Int) : Frame :=
  { s with params := { s.params with output := { s.params.output with blankCount := n } } }

/-- The frame `s` with `params.output.endCount` replaced by `n`, all else equal. -/
def Frame.withEndCount (s : Frame) (n : Int) : Frame :=
  { s with params := { s.params with output := { s.params.output with endCount := n } } }

/-- A set of polyline primitives that record their call in the path: smoothing appends the
vertex `(1,0)`, simplification appends `(2,0)`, resampling appends `(3,0)`; the perimeter is
`axisLength`. -/
def tracePrims : PolyPrims :=
  { getSmoothed := fun p _ => { p with vertices := p.vertices ++ [⟨1, 0⟩] }
    simplify := fun p _ => { p with vertices := p.vertices ++ [⟨2, 0⟩] }
    getPerimeter := fun p => axisLength p.vertices
    getResampledBySpacing := fun p _ => { p with vertices := p.vertices ++ [⟨3, 0⟩] } }

/-- A frame with every stage enabled (`smoothAmount = 3`, `optimizeTolerance = 1/100`,
`targetPointCount = 0`, `spacing = 1/10`) holding the one-vertex path `(0,0)` and an empty
path. -/
def stagesFrame : Frame :=
  let s : Frame :=
    { Frame.new with
      params := { defaultParams with
        path := { defaultParams.path with
          smoothAmount := 3, optimizeTolerance := 1/100, targetPointCount := 0,
          spacing := 1/10 } } }
  (s.addPolyPoints [⟨0, 0⟩]).addPolyEmpty

/-! ## Float32 arithmetic -/

/-- Rounding of a rational to the nearest integer, a tie going to the even neighbour. -/
def roundHalfEven (x : ℚ) : Int :=
  if x - (⌊x⌋ : ℚ) < 1/2 then ⌊x⌋
  else if 1/2 < x - (⌊x⌋ : ℚ) then ⌊x⌋ + 1
  else if ⌊x⌋ % 2 = 0 then ⌊x⌋ else ⌊x⌋ + 1

/-- The exponent of the float32 grid spacing at `v`: 23 below the binary exponent of `v`
(24 significant bits), and never below the subnormal spacing `2^-149`. -/
def quantumExp (v : ℚ) : Int := max (Int.log 2 |v| - 23) (-149)

/-- The multiple of the float32 grid spacing at `v` that is nearest to `v` (ties to even),
before the range check. -/
def gridRound (v : ℚ) : ℚ :=
  (roundHalfEven (v / (2 : ℚ) ^ quantumExp v) : ℚ) * (2 : ℚ) ^ quantumExp v

/-- Rounding of an exact result to float32 (round to nearest, ties to even); `none` when the
rounded value is outside the finite float32 range, that is of magnitude `2^128` or more. -/
def round32 (v : ℚ) : Option ℚ :=
  if |gridRound v| < (2 : ℚ) ^ (128 : Nat) then some (gridRound v) else none

/-- The finite float32 values: `m * 2^e` with a significand `|m| < 2^24`, an exponent
`e >= -149` and a magnitude below `2^128`. -/
def isF32 (q : ℚ) : Prop :=
  ∃ m e : Int, |m| < 2 ^ 24 ∧ -149 ≤ e ∧ q = (m : ℚ) * (2 : ℚ) ^ e ∧ |q| < (2 : ℚ) ^ (128 : Nat)

/-! ## Point transformer in float32 -/

/-- The `// flip` block of `transformPoint` in float32: `p.x = 1 - p.x` is one rounded
subtraction. -/
def flipPointF32 (t : TransformParams) (p : ofPoint) : Option ofPoint := do
  let x ← if t.doFlipX then round32 (1 - p.x) else some p.x
  let y ← if t.doFlipY then round32 (1 - p.y) else some p.y
  pure ⟨x, y⟩

/-- Source `ofVec2f::lengthSquared()` in float32: `x*x + y*y` with each product and the sum
rounded. -/
def lengthSquaredF32 (v : ofVec2f) : Option ℚ := do
  let xx ← round32 (v.x * v.x)
  let yy ← round32 (v.y * v.y)
  round32 (xx + yy)

/-- The `// scale` block of `transformPoint` in float32: behind the guard
`scale.lengthSquared() > 0`, the three statements `p -= (0.5, 0.5)`, `p *= scale`,
`p += (0.5, 0.5)`, each a rounded operation per axis. -/
def scalePointF32 (t : TransformParams) (p : ofPoint) : Option ofPoint := do
  let l ← lengthSquaredF32 t.scale
  if l > 0 then do
    let x ← round32 (p.x - 1/2)
    let y ← round32 (p.y - 1/2)
    let x ← round32 (x * t.scale.x)
    let y ← round32 (y * t.scale.y)
    let x ← round32 (x + 1/2)
    let y ← round32 (y + 1/2)
    pure ⟨x, y⟩
  else pure p

/-- The `// offset` block of `transformPoint` in float32: one rounded addition per axis. -/
def offsetPointF32 (t : TransformParams) (p : ofPoint) : Option ofPoint := do
  let x ← round32 (p.x + t.offset.x)
  let y ← round32 (p.y + t.offset.y)
  pure ⟨x, y⟩

/-- The value of `p` in `transformPoint`, in float32, when control reaches the
`// cap or wrap` block. -/
def beforeCapOrWrapF32 (params : Params) (p : ofPoint) : Option ofPoint := do
  let p ← flipPointF32 params.output.transform p
  let p ← scalePointF32 params.output.transform p
  offsetPointF32 params.output.transform p

/-- One axis of the `// cap or wrap` block of `transformPoint` in float32. The wrap of a
negative coordinate, `1 + p.x - ceil(p.x)`, is evaluated left to right: `1 + p.x` is rounded
before `ceil(p.x)` is subtracted and the difference is rounded again; `ceil` and `floor` of
a float are exact. -/
def capOrWrapF32 (doCap : Bool) (c : ℚ) : Option ℚ :=
  if c < 0 then
    if doCap then some 0
    else do
      let a ← round32 (1 + c)
      round32 (a - (⌈c⌉ : ℚ))
  else if c > 1 then
    if doCap then some 1 else round32 (c - (⌊c⌋ : ℚ))
  else some c

/-- Source `Frame::transformPoint` in float32. -/
def transformPointF32 (params : Params) (p : ofPoint) : Option ofPoint := do
  let p ← beforeCapOrWrapF32 params p
  let x ← capOrWrapF32 params.output.doCapX p.x
  let y ← capOrWrapF32 params.output.doCapY p.y
  pure ⟨x, y⟩

theorem foldlM_range_lookup {α β γ : Type} (f : β → α → γ → β) :
    ∀ (xs : List α) (ys : List γ) (init : β), xs.length ≤ ys.length →
      (List.range xs.length).foldlM
        (fun acc i => (xs[i]?).bind fun x => (ys[i]?).bind fun y => some (f acc x y)) init
      = some ((xs.zip ys).foldl (fun acc xy => f acc xy.1 xy.2) init) := by
  intro xs
  induction xs with
  | nil => intro ys init _; simp
  | cons x xs ih =>
    intro ys init h
    cases ys with
    | nil => simp at h
    | cons y ys =>
      simp only [List.length_cons, Nat.add_le_add_iff_right] at h
      rw [List.length_cons, List.range_succ_eq_map, List.foldlM_cons]
      simp only [List.getElem?_cons_zero, Option.bind_eq_bind, Option.some_bind,
        List.foldlM_map, List.getElem?_cons_succ, List.zip_cons_cons, List.foldl_cons]
      exact ih ys (f init x y) h

theorem pushRepeat_eq (points : List Point) (count : Int) (pt : Point) :
    pushRepeat points count pt = points ++ List.replicate count.toNat pt := by
  unfold pushRepeat
  generalize count.toNat = n
  induction n with
  | zero => simp
  | succ n ih =>
    rw [List.range_succ, List.foldl_append, ih, List.replicate_succ']
    simp

theorem pushVertices_eq (params : Params) (points : List Point) (poly : ofPolyline)
    (pcolor : ofFloatColor) :
    pushVertices params points poly pcolor
      = points ++ poly.vertices.map (fun w => Point.mk (transformPoint params w) pcolor) := by
  unfold pushVertices
  generalize poly.vertices = vs
  induction vs generalizing points with
  | nil => simp
  | cons v vs ih => rw [List.foldl_cons, ih]; simp

theorem emitPoly_eq (params : Params) (points : List Point) (poly : ofPolyline)
    (pcolor : ofFloatColor) :
    emitPoly params points poly pcolor
      = points ++ segmentSpec params params.output.blankCount.toNat
          params.output.endCount.toNat poly pcolor := by
  unfold emitPoly segmentSpec
  split
  · next h => simp [h]
  · next v vs h =>
    simp only [pushRepeat_eq, pushVertices_eq, h, blankColor, List.append_assoc]

theorem foldl_emit_eq (params : Params) :
    ∀ (polys : List ofPolyline) (colors : List ofFloatColor) (init : List Point),
      (polys.zip colors).foldl (fun acc xy => emitPoly params acc xy.1 xy.2) init
        = init ++ finalPointsSpec params params.output.blankCount.toNat
            params.output.endCount.toNat polys colors := by
  intro polys
  induction polys with
  | nil => intro colors init; simp [finalPointsSpec]
  | cons p ps ih =>
    intro colors init
    cases colors with
    | nil => simp [finalPointsSpec]
    | cons c cs =>
      rw [List.zip_cons_cons, List.foldl_cons, ih, emitPoly_eq]
      simp [finalPointsSpec]

theorem assemblePoints_eq (params : Params) (polys : List ofPolyline)
    (colors : List ofFloatColor) (h : polys.length ≤ colors.length) :
    assemblePoints params polys colors
      = some (finalPointsSpec params params.output.blankCount.toNat
          params.output.endCount.toNat polys colors) := by
  have := foldlM_range_lookup (fun acc x y => emitPoly params acc x y) polys colors [] h
  rw [foldl_emit_eq] at this
  simpa [assemblePoints] using this

theorem segmentSpec_length (params : Params) (b e : Nat) (poly : ofPolyline)
    (c : ofFloatColor) :
    (segmentSpec params b e poly c).length
      = if poly.size = 0 then 0 else 2 * b + 2 * e + poly.size := by
  unfold segmentSpec ofPolyline.size
  split
  · next h => simp [h]
  · next v vs h => simp [h]; omega

/-! ## Theorems -/

/-- C1: for every frame state whose dwell counts are the non-negative numbers `b` and `e`
and in which every processed path has its colour, `updateFinalPoints` returns the state
whose final point list is the concatenation, in processed-path order, of the spec segments
(and whose other fields are unchanged); the previous final point list does not enter. -/
theorem updateFinalPoints_eq_concat (s : Frame) (b e : Nat)
    (hb : s.params.output.blankCount = (b : Int)) (he : s.params.output.endCount = (e : Int))
    (hc : s.processedPolys.length ≤ s.processedPolysColor.length) :
    s.updateFinalPoints
      = some { s with points :=
          (List.zipWith (segmentSpec s.params b e) s.processedPolys
            s.processedPolysColor).flatten } := by
  unfold Frame.updateFinalPoints
  rw [assemblePoints_eq _ _ _ hc, hb, he]
  simp [finalPointsSpec]

/-- C1 (witness): the square frame, with `blankCount = 2` and `endCount = 1`. -/
theorem updateFinalPoints_eq_concat_witness :
    squareFrame.updateFinalPoints
      = some { squareFrame with points :=
          (List.zipWith (segmentSpec squareFrame.params 2 1) squareFrame.processedPolys
            squareFrame.processedPolysColor).flatten } :=
  updateFinalPoints_eq_concat squareFrame 2 1 rfl rfl (by decide)

theorem finalPointsSpec_length (params : Params) (b e : Nat) :
    ∀ (polys : List ofPolyline) (colors : List ofFloatColor),
      polys.length ≤ colors.length →
      (finalPointsSpec params b e polys colors).length
        = ((polys.filter (fun p => decide (p.size ≠ 0))).map
            (fun p => 2 * b + 2 * e + p.size)).sum := by
  intro polys
  induction polys with
  | nil => intro colors _; simp [finalPointsSpec]
  | cons p ps ih =>
    intro colors h
    cases colors with
    | nil => simp at h
    | cons c cs =>
      simp only [List.length_cons, Nat.add_le_add_iff_right] at h
      have ih' := ih cs h
      simp only [finalPointsSpec] at ih' ⊢
      rw [List.zipWith_cons_cons, List.flatten_cons, List.length_append, ih',
        segmentSpec_length]
      by_cases hp : p.size = 0
      · simp [hp]
      · simp [hp]

theorem segmentCount_eq (blankCount endCount : Int) (n : Nat) :
    segmentCount blankCount endCount n
      = ((2 * blankCount.toNat + 2 * endCount.toNat + n : Nat) : Int) := by
  unfold segmentCount
  push_cast
  rw [Int.toNat_eq_max, Int.toNat_eq_max, max_comm 0 blankCount, max_comm 0 endCount]

/-- C2 (counterexample): with `blankCount = -1` and `endCount = 0`, a processed path with one
vertex contributes one entry to the final point list, whereas `2*blankCount + 2*endCount + N`
is `-1`. -/
theorem point_count_law_neg_blank :
    negBlankFrame.params.output.blankCount = -1
      ∧ negBlankFrame.params.output.endCount = 0
      ∧ negBlankFrame.processedPolys.map ofPolyline.size = [1]
      ∧ (negBlankFrame.updateFinalPoints.map fun s => (s.points.length : Int)) = some 1
      ∧ 2 * negBlankFrame.params.output.blankCount
          + 2 * negBlankFrame.params.output.endCount + 1 = -1 := by
  refine ⟨rfl, rfl, rfl, ?_, by decide⟩
  unfold Frame.updateFinalPoints
  rw [assemblePoints_eq _ _ _ (by decide)]
  rfl

/-- C2 (amended): for every output configuration, a non-empty path with `N` vertices
contributes exactly `2*max(0,blankCount) + 2*max(0,endCount) + N` entries to the output
vector, and when every processed path has its colour the final point list built by
`updateFinalPoints` has as many entries as the sum of that quantity over the non-empty
processed paths. -/
theorem point_count_law (s : Frame)
    (hc : s.processedPolys.length ≤ s.processedPolysColor.length) :
    (∀ (points : List Point) (poly : ofPolyline) (pcolor : ofFloatColor), poly.size ≠ 0 →
        ((emitPoly s.params points poly pcolor).length : Int)
          = (points.length : Int)
            + segmentCount s.params.output.blankCount s.params.output.endCount poly.size)
    ∧ ∃ s', s.updateFinalPoints = some s'
        ∧ (s'.points.length : Int)
          = ((s.processedPolys.filter (fun p => decide (p.size ≠ 0))).map
              (fun p => segmentCount s.params.output.blankCount s.params.output.endCount
                p.size)).sum := by
  refine ⟨?_, ?_⟩
  · intro points poly pcolor hp
    rw [emitPoly_eq, List.length_append, segmentSpec_length, if_neg hp, segmentCount_eq]
    push_cast
    ring
  · refine ⟨{ s with points := (finalPointsSpec s.params s.params.output.blankCount.toNat
        s.params.output.endCount.toNat s.processedPolys s.processedPolysColor) }, ?_, ?_⟩
    · unfold Frame.updateFinalPoints
      rw [assemblePoints_eq _ _ _ hc]
      rfl
    · simp only [finalPointsSpec_length _ _ _ _ _ hc, segmentCount_eq]
      generalize s.processedPolys.filter _ = l
      induction l with
      | nil => simp
      | cons p ps ih =>
        simp only [List.map_cons, List.sum_cons] at ih ⊢
        rw [← ih]
        push_cast
        ring

/-- C2 (witness): the square frame has a colour for its one processed path. -/
theorem point_count_law_witness :
    (∀ (points : List Point) (poly : ofPolyline) (pcolor : ofFloatColor), poly.size ≠ 0 →
        ((emitPoly squareFrame.params points poly pcolor).length : Int)
          = (points.length : Int)
            + segmentCount squareFrame.params.output.blankCount
                squareFrame.params.output.endCount poly.size)
    ∧ ∃ s', squareFrame.updateFinalPoints = some s'
        ∧ (s'.points.length : Int)
          = ((squareFrame.processedPolys.filter (fun p => decide (p.size ≠ 0))).map
              (fun p => segmentCount squareFrame.params.output.blankCount
                squareFrame.params.output.endCount p.size)).sum :=
  point_count_law squareFrame (by decide)

theorem transformPoint_x (params : Params) (p : ofPoint) :
    (transformPoint params p).x
      = capOrWrap params.output.doCapX (beforeCapOrWrap params p).x := rfl

theorem transformPoint_y (params : Params) (p : ofPoint) :
    (transformPoint params p).y
      = capOrWrap params.output.doCapY (beforeCapOrWrap params p).y := rfl

theorem beforeCapOrWrap_identity (params : Params) (p : ofPoint)
    (hfx : params.output.transform.doFlipX = false)
    (hfy : params.output.transform.doFlipY = false)
    (hs : params.output.transform.scale = ⟨1, 1⟩)
    (ho : params.output.transform.offset = ⟨0, 0⟩) :
    beforeCapOrWrap params p = p := by
  simp [beforeCapOrWrap, offsetPoint, scalePoint, flipPoint, hfx, hfy, hs, ho,
    ofVec2f.lengthSquared]

/-- C5: with `doCapX = true` the x coordinate returned by `transformPoint` is
`min(1, max(0, c))` for the post-offset coordinate `c`, and it does not depend on `doCapY`;
with `doCapY = true` the y coordinate is `min(1, max(0, c))` and does not depend on
`doCapX`; with no flip, unit scale, zero offset and `doCapX = true`, `1.3` gives `1` and
`-0.2` gives `0`. -/
theorem transformPoint_cap (params : Params) (p : ofPoint) :
    (params.output.doCapX = true →
      (transformPoint params p).x = min 1 (max 0 (beforeCapOrWrap params p).x))
    ∧ (params.output.doCapY = true →
      (transformPoint params p).y = min 1 (max 0 (beforeCapOrWrap params p).y))
    ∧ (∀ d : Bool,
        (transformPoint { params with output := { params.output with doCapY := d } } p).x
          = (transformPoint params p).x)
    ∧ (∀ d : Bool,
        (transformPoint { params with output := { params.output with doCapX := d } } p).y
          = (transformPoint params p).y)
    ∧ (params.output.transform.doFlipX = false → params.output.transform.doFlipY = false →
        params.output.transform.scale = ⟨1, 1⟩ → params.output.transform.offset = ⟨0, 0⟩ →
        params.output.doCapX = true →
        ∀ y : ℚ, (transformPoint params ⟨13 / 10, y⟩).x = 1
          ∧ (transformPoint params ⟨-1 / 5, y⟩).x = 0) := by
  have key : ∀ c : ℚ, capOrWrap true c = min 1 (max 0 c) := by
    intro c
    unfold capOrWrap
    by_cases h0 : c < 0
    · rw [if_pos h0, max_eq_left h0.le]; simp
    · by_cases h1 : c > 1
      · rw [if_neg h0, if_pos h1, max_eq_right (not_lt.mp h0), min_eq_left h1.le]; simp
      · rw [if_neg h0, if_neg h1, max_eq_right (not_lt.mp h0), min_eq_right (not_lt.mp h1)]
  refine ⟨?_, ?_, fun _ => rfl, fun _ => rfl, ?_⟩
  · intro h
    rw [transformPoint_x, h, key]
  · intro h
    rw [transformPoint_y, h, key]
  · intro hfx hfy hs ho hc y
    rw [transformPoint_x, transformPoint_x, hc, key, key,
      beforeCapOrWrap_identity params _ hfx hfy hs ho,
      beforeCapOrWrap_identity params _ hfx hfy hs ho]
    constructor
    · rw [max_eq_right (by norm_num), min_eq_left (by norm_num)]
    · rw [max_eq_left (by norm_num), min_eq_right (by norm_num)]

/-- C5 (witness): the default configuration with both caps switched on, at the point
`(1.3, -0.2)`. -/
theorem transformPoint_cap_witness :
    (transformPoint cappedParams ⟨13 / 10, -1 / 5⟩).x
        = min 1 (max 0 (beforeCapOrWrap cappedParams ⟨13 / 10, -1 / 5⟩).x)
      ∧ (transformPoint cappedParams ⟨13 / 10, -1 / 5⟩).y
        = min 1 (max 0 (beforeCapOrWrap cappedParams ⟨13 / 10, -1 / 5⟩).y)
      ∧ (transformPoint cappedParams ⟨13 / 10, 0⟩).x = 1
      ∧ (transformPoint cappedParams ⟨-1 / 5, 0⟩).x = 0 :=
  have h := transformPoint_cap cappedParams ⟨13 / 10, -1 / 5⟩
  ⟨h.1 rfl, h.2.1 rfl, h.2.2.2.2 rfl rfl rfl rfl rfl 0⟩


/-! ## Lemmas on the processing pass -/

theorem processLoop_fold (P : PolyPrims) (path : PathParams) :
    ∀ (polys : List ofPolyline) (st : LoopState),
      (polys.foldl (processStep P path) st).polys = st.polys ++ polys.map (stagedPoly P path)
      ∧ (polys.foldl (processStep P path) st).totalLength
          = st.totalLength
            + if path.targetPointCount > 0 then totalLengthSpec P path polys else 0 := by
  intro polys
  induction polys with
  | nil => intro st; simp [totalLengthSpec]
  | cons p ps ih =>
    intro st
    rw [List.foldl_cons]
    obtain ⟨h1, h2⟩ := ih (processStep P path st p)
    rw [h1, h2]
    by_cases hp : p.size = 0
    · by_cases ht : path.targetPointCount > 0 <;>
        simp [processStep, stagedPoly, totalLengthSpec, hp, ht]
    · by_cases ht : path.targetPointCount > 0
      · simp [processStep, stagedPoly, totalLengthSpec, hp, ht, add_assoc]
      · simp [processStep, stagedPoly, totalLengthSpec, hp, ht]

theorem processLoop_polys (P : PolyPrims) (path : PathParams) (polys : List ofPolyline) :
    (processLoop P path polys).polys = polys.map (stagedPoly P path) := by
  simpa [processLoop] using (processLoop_fold P path polys ⟨[], 0, []⟩).1

theorem processLoop_totalLength (P : PolyPrims) (path : PathParams)
    (polys : List ofPolyline) :
    (processLoop P path polys).totalLength
      = if path.targetPointCount > 0 then totalLengthSpec P path polys else 0 := by
  simpa [processLoop] using (processLoop_fold P path polys ⟨[], 0, []⟩).2

theorem foldl_stats :
    ∀ (xs ys : List ofPolyline) (init : Stats), xs.length = ys.length →
      (xs.zip ys).foldl
        (fun (st : Stats) xy =>
          { pointCountOrig := st.pointCountOrig + (xy.2.size : Int),
            pointCountProcessed := st.pointCountProcessed + (xy.1.size : Int) }) init
      = ⟨init.pointCountOrig + pointCount ys, init.pointCountProcessed + pointCount xs⟩ := by
  intro xs
  induction xs with
  | nil =>
    intro ys init h
    cases ys with
    | nil => simp [pointCount]
    | cons y ys => simp at h
  | cons x xs ih =>
    intro ys init h
    cases ys with
    | nil => simp at h
    | cons y ys =>
      simp only [List.length_cons, Nat.add_right_cancel_iff] at h
      rw [List.zip_cons_cons, List.foldl_cons, ih ys _ h]
      simp [pointCount, add_assoc]

theorem computeStats_eq (origPolys processedPolys : List ofPolyline)
    (h : processedPolys.length = origPolys.length) :
    computeStats origPolys processedPolys
      = some ⟨pointCount origPolys, pointCount processedPolys⟩ := by
  have hf : (fun (st : Stats) (i : Nat) =>
        (origPolys[i]?).bind fun o => (processedPolys[i]?).bind fun p =>
          some ({ pointCountOrig := st.pointCountOrig + (o.size : Int),
                  pointCountProcessed := st.pointCountProcessed + (p.size : Int) } : Stats))
      = (fun (st : Stats) (i : Nat) =>
        (processedPolys[i]?).bind fun p => (origPolys[i]?).bind fun o =>
          some ({ pointCountOrig := st.pointCountOrig + (o.size : Int),
                  pointCountProcessed := st.pointCountProcessed + (p.size : Int) } : Stats)) := by
    funext st i
    cases origPolys[i]? <;> cases processedPolys[i]? <;> rfl
  have key := foldlM_range_lookup
    (fun (st : Stats) (p o : ofPolyline) =>
      ({ pointCountOrig := st.pointCountOrig + (o.size : Int),
         pointCountProcessed := st.pointCountProcessed + (p.size : Int) } : Stats))
    processedPolys origPolys ⟨0, 0⟩ h.le
  rw [foldl_stats _ _ _ h] at key
  simp only [zero_add] at key
  rw [← key, ← hf]
  rfl

theorem processedSpec_length (P : PolyPrims) (path : PathParams) (polys : List ofPolyline) :
    (processedSpec P path polys).length = polys.length := by
  unfold processedSpec
  split_ifs <;> simp

theorem update_eq (P : PolyPrims) (s : Frame)
    (hc : s.origPolys.length ≤ s.processedPolysColor.length) :
    s.update P = some (s.afterPass P) := by
  have hsp : (if s.params.path.targetPointCount > 0
        ∧ (processLoop P s.params.path s.origPolys).totalLength > 0 then
        (processLoop P s.params.path s.origPolys).totalLength
          / (s.params.path.targetPointCount : ℚ)
      else s.params.path.spacing) = spacingAfter P s.params.path s.origPolys := by
    rw [processLoop_totalLength]
    unfold spacingAfter
    by_cases ht : s.params.path.targetPointCount > 0
    · simp [ht]
    · simp [ht]
  have hpp : (if spacingAfter P s.params.path s.origPolys ≠ 0 then
        (processLoop P s.params.path s.origPolys).polys.map
          (fun poly => P.getResampledBySpacing poly (spacingAfter P s.params.path s.origPolys))
      else (processLoop P s.params.path s.origPolys).polys)
      = processedSpec P s.params.path s.origPolys := by
    rw [processLoop_polys]
    unfold processedSpec
    split_ifs <;> simp
  have hlen := processedSpec_length P s.params.path s.origPolys
  unfold Frame.update
  simp only [hsp, hpp]
  rw [computeStats_eq _ _ hlen]
  simp only [Option.bind_eq_bind, Option.some_bind, Frame.updateFinalPoints]
  rw [assemblePoints_eq _ _ _ (by simpa [hlen] using hc)]
  rfl

theorem spacingAfter_pos (P : PolyPrims) (path : PathParams) (polys : List ofPolyline)
    (ht : path.targetPointCount > 0) (hL : totalLengthSpec P path polys > 0) :
    spacingAfter P path polys = totalLengthSpec P path polys / (path.targetPointCount : ℚ)
      ∧ spacingAfter P path polys ≠ 0 := by
  have h : spacingAfter P path polys
      = totalLengthSpec P path polys / (path.targetPointCount : ℚ) := by
    unfold spacingAfter
    rw [if_pos ⟨ht, hL⟩]
  refine ⟨h, ?_⟩
  rw [h]
  have hpos : (0 : ℚ) < (path.targetPointCount : ℚ) := by exact_mod_cast ht
  exact ne_of_gt (div_pos hL hpos)

theorem spacingAfter_idem (P : PolyPrims) (path : PathParams) (polys : List ofPolyline) :
    spacingAfter P { path with spacing := spacingAfter P path polys } polys
      = spacingAfter P path polys := by
  have ht : totalLengthSpec P { path with spacing := spacingAfter P path polys } polys
      = totalLengthSpec P path polys := rfl
  unfold spacingAfter
  simp only [ht]
  split_ifs <;> rfl

theorem processedSpec_idem (P : PolyPrims) (path : PathParams) (polys : List ofPolyline) :
    processedSpec P { path with spacing := spacingAfter P path polys } polys
      = processedSpec P path polys := by
  have hs : stagedPoly P { path with spacing := spacingAfter P path polys }
      = stagedPoly P path := rfl
  unfold processedSpec
  rw [spacingAfter_idem, hs]

theorem afterPass_idem (P : PolyPrims) (s : Frame) :
    (s.afterPass P).afterPass P = s.afterPass P := by
  have h1 := spacingAfter_idem P s.params.path s.origPolys
  have h2 := processedSpec_idem P s.params.path s.origPolys
  simp only [Frame.afterPass, h1, h2]

theorem stagedPoly_disabled (P : PolyPrims) (path : PathParams)
    (h1 : path.smoothAmount ≤ 0) (h2 : path.optimizeTolerance ≤ 0) (poly : ofPolyline) :
    stagedPoly P path poly = poly := by
  unfold stagedPoly smoothSimplify
  simp [not_lt.mpr h1, not_lt.mpr h2]

theorem processedSpec_disabled (P : PolyPrims) (path : PathParams) (polys : List ofPolyline)
    (h1 : path.smoothAmount ≤ 0) (h2 : path.optimizeTolerance ≤ 0)
    (h3 : path.targetPointCount ≤ 0) (h4 : path.spacing = 0) :
    spacingAfter P path polys = 0 ∧ processedSpec P path polys = polys := by
  have hs : spacingAfter P path polys = 0 := by
    unfold spacingAfter
    rw [if_neg (fun h => absurd h.1 (not_lt.mpr h3)), h4]
  refine ⟨hs, ?_⟩
  unfold processedSpec
  rw [hs]
  have hid : stagedPoly P path = id := funext (stagedPoly_disabled P path h1 h2)
  simp [hid]

theorem aligned_new : Frame.new.Aligned := by
  constructor <;> simp [Frame.new, Frame.setDefaultParams]

theorem aligned_apply (P : PolyPrims) (s : Frame) (op : Op) (h : s.Aligned) :
    ∃ s', op.apply P s = some s' ∧ s'.Aligned := by
  obtain ⟨h1, h2⟩ := h
  cases op with
  | addPoly poly =>
    refine ⟨_, rfl, ?_⟩
    constructor <;> simp [Frame.addPoly, h1]
    omega
  | getLastPoly =>
    refine ⟨_, rfl, ?_⟩
    unfold Frame.getLastPoly
    split_ifs
    · constructor <;> simp [Frame.addPolyEmpty, Frame.addPoly, h1]
      omega
    · exact ⟨h1, h2⟩
  | clear =>
    refine ⟨_, rfl, ?_⟩
    constructor <;> simp [Frame.clear]
  | update =>
    refine ⟨_, update_eq P s (by omega), ?_⟩
    constructor
    · simpa [Frame.afterPass] using h1
    · simp [Frame.afterPass, processedSpec_length]
  | updateFinalPoints =>
    refine ⟨{ s with points := (finalPointsSpec s.params s.params.output.blankCount.toNat
      s.params.output.endCount.toNat s.processedPolys s.processedPolysColor) }, ?_, ⟨h1, h2⟩⟩
    show s.updateFinalPoints = _
    unfold Frame.updateFinalPoints
    rw [assemblePoints_eq _ _ _ (by omega)]
    rfl
  | setParams params =>
    exact ⟨_, rfl, ⟨h1, h2⟩⟩

theorem aligned_runOps (P : PolyPrims) :
    ∀ (ops : List Op) (s : Frame), s.Aligned → ∃ s', runOps P ops s = some s' ∧ s'.Aligned := by
  intro ops
  induction ops with
  | nil => intro s h; exact ⟨s, rfl, h⟩
  | cons op ops ih =>
    intro s h
    obtain ⟨s₁, e₁, h₁⟩ := aligned_apply P s op h
    obtain ⟨s₂, e₂, h₂⟩ := ih s₁ h₁
    refine ⟨s₂, ?_, h₂⟩
    simp only [runOps, List.foldlM_cons, e₁, Option.bind_eq_bind, Option.some_bind]
    exact e₂

theorem axisLength_squarePoints : axisLength squarePoints = 3 := by
  norm_num [axisLength, squarePoints]

theorem axisLength_longPoints : axisLength longPoints = 7 := by
  norm_num [axisLength, longPoints]

theorem twoPathFrame_origPolys :
    twoPathFrame.origPolys = [ofPolyline.ofPoints squarePoints, ofPolyline.ofPoints longPoints] :=
  rfl

theorem twoPathFrame_totalLength :
    totalLengthSpec samplePrims twoPathFrame.params.path twoPathFrame.origPolys = 10 := by
  have h1 : samplePrims.getPerimeter
      (smoothSimplify samplePrims twoPathFrame.params.path (ofPolyline.ofPoints squarePoints))
      = 3 := axisLength_squarePoints
  have h2 : samplePrims.getPerimeter
      (smoothSimplify samplePrims twoPathFrame.params.path (ofPolyline.ofPoints longPoints))
      = 7 := axisLength_longPoints
  have hf : (twoPathFrame.origPolys.filter (fun p => decide (p.size ≠ 0)))
      = [ofPolyline.ofPoints squarePoints, ofPolyline.ofPoints longPoints] := by decide
  unfold totalLengthSpec
  rw [hf]
  simp only [List.map_cons, List.map_nil, List.sum_cons, List.sum_nil, h1, h2]
  norm_num

/-! ## Theorems on the processing pass -/

/-- C6: for every frame with `targetPointCount > 0` and total length `L > 0` (and a colour for
every path), a processing pass returns a state whose `params.path.spacing` is
`L / targetPointCount`, whatever the spacing was before, and whose processed paths are the
staged paths each resampled with that one value; two non-empty paths of perimeter 3 and 7
with `targetPointCount = 100` give spacing `1/10`. -/
theorem update_derives_spacing (P : PolyPrims) (s : Frame)
    (hc : s.origPolys.length ≤ s.processedPolysColor.length)
    (ht : s.params.path.targetPointCount > 0)
    (hL : totalLengthSpec P s.params.path s.origPolys > 0) :
    ∃ s', s.update P = some s'
      ∧ s'.params.path.spacing
          = totalLengthSpec P s.params.path s.origPolys
            / (s.params.path.targetPointCount : ℚ)
      ∧ s'.processedPolys
          = s.origPolys.map (fun p => P.getResampledBySpacing (stagedPoly P s.params.path p)
              (totalLengthSpec P s.params.path s.origPolys
                / (s.params.path.targetPointCount : ℚ)))
      ∧ (∀ p₁ p₂ : ofPolyline, s.origPolys = [p₁, p₂] → p₁.size ≠ 0 → p₂.size ≠ 0 →
          P.getPerimeter (smoothSimplify P s.params.path p₁) = 3 →
          P.getPerimeter (smoothSimplify P s.params.path p₂) = 7 →
          s.params.path.targetPointCount = 100 →
          s'.params.path.spacing = 1 / 10
            ∧ s'.processedPolys
              = [P.getResampledBySpacing (smoothSimplify P s.params.path p₁) (1 / 10),
                 P.getResampledBySpacing (smoothSimplify P s.params.path p₂) (1 / 10)]) := by
  obtain ⟨hsp, hne⟩ := spacingAfter_pos P s.params.path s.origPolys ht hL
  have hpp : (s.afterPass P).processedPolys
      = s.origPolys.map (fun p => P.getResampledBySpacing (stagedPoly P s.params.path p)
          (totalLengthSpec P s.params.path s.origPolys
            / (s.params.path.targetPointCount : ℚ))) := by
    show processedSpec P s.params.path s.origPolys = _
    unfold processedSpec
    rw [if_pos hne, hsp]
  refine ⟨s.afterPass P, update_eq P s hc, hsp, hpp, ?_⟩
  intro p₁ p₂ ho h1 h2 hp1 hp2 h100
  have hL10 : totalLengthSpec P s.params.path s.origPolys = 10 := by
    unfold totalLengthSpec
    rw [ho]
    simp only [List.filter_cons, h1, h2, ne_eq, not_false_eq_true, decide_True, if_true,
      List.filter_nil, List.map_cons, List.map_nil, List.sum_cons, List.sum_nil, hp1, hp2]
    norm_num
  have hq : totalLengthSpec P s.params.path s.origPolys
      / (s.params.path.targetPointCount : ℚ) = 1 / 10 := by
    rw [hL10, h100]; norm_num
  refine ⟨by rw [← hq]; exact hsp, ?_⟩
  rw [hpp, hq, ho]
  simp [stagedPoly, h1, h2]

/-- C6 (witness): the two-path frame (perimeters 3 and 7, `targetPointCount = 100`, spacing
5 before the pass) with the sample primitives. -/
theorem update_derives_spacing_witness :
    ∃ s', twoPathFrame.update samplePrims = some s'
      ∧ twoPathFrame.params.path.spacing = 5
      ∧ s'.params.path.spacing = 1 / 10 := by
  obtain ⟨s', h1, _, _, h4⟩ := update_derives_spacing samplePrims twoPathFrame (by decide)
    (by decide) (by rw [twoPathFrame_totalLength]; norm_num)
  exact ⟨s', h1, rfl,
    (h4 _ _ twoPathFrame_origPolys (by decide) (by decide) axisLength_squarePoints
      axisLength_longPoints rfl).1⟩

/-- C7 (counterexample): a frame whose path parameters are `0, 0, 0` and `spacing = -1` (all
`<= 0`) has its one path resampled with spacing `-1` by a processing pass; with the sample
resampler the processed path then differs from the original one and the two point counts
differ. -/
theorem disabled_stages_neg_spacing :
    negSpacingFrame.params.path.smoothAmount ≤ 0
      ∧ negSpacingFrame.params.path.optimizeTolerance ≤ 0
      ∧ negSpacingFrame.params.path.targetPointCount ≤ 0
      ∧ negSpacingFrame.params.path.spacing ≤ 0
      ∧ ∃ s', negSpacingFrame.update samplePrims = some s'
        ∧ s'.processedPolys
            = negSpacingFrame.origPolys.map
                (fun p => samplePrims.getResampledBySpacing p (-1))
        ∧ s'.processedPolys ≠ negSpacingFrame.origPolys
        ∧ s'.stats.pointCountProcessed ≠ s'.stats.pointCountOrig := by
  have hs : spacingAfter samplePrims negSpacingFrame.params.path negSpacingFrame.origPolys
      = -1 := by
    unfold spacingAfter
    rw [if_neg (fun h => absurd h.1 (by decide))]
    rfl
  have hpp : processedSpec samplePrims negSpacingFrame.params.path negSpacingFrame.origPolys
      = [⟨[⟨0, 0⟩], false⟩] := by
    unfold processedSpec
    rw [hs, if_pos (by norm_num)]
    rfl
  refine ⟨by decide, le_refl _, by decide, ?_, negSpacingFrame.afterPass samplePrims,
    update_eq _ _ (by decide), ?_, ?_, ?_⟩
  · show (-1 : ℚ) ≤ 0
    norm_num
  · show processedSpec samplePrims negSpacingFrame.params.path negSpacingFrame.origPolys = _
    rw [hpp]; rfl
  · show processedSpec samplePrims negSpacingFrame.params.path negSpacingFrame.origPolys ≠ _
    rw [hpp]
    intro h
    have := congrArg (fun l => l.map ofPolyline.size) h
    revert this
    decide
  · show pointCount (processedSpec samplePrims negSpacingFrame.params.path
        negSpacingFrame.origPolys) ≠ pointCount negSpacingFrame.origPolys
    rw [hpp]
    decide

/-- C7 (amended): for every frame (with a colour for every path) whose `smoothAmount`,
`optimizeTolerance` and `targetPointCount` are `<= 0` and whose `spacing` is exactly zero, a
processing pass applies no smoothing, no simplification and no resampling: every processed
path equals its original path, `pointCountProcessed` equals `pointCountOrig`, and the
resulting state is the same for every choice of polyline primitives. -/
theorem disabled_stages_noop (P : PolyPrims) (s : Frame)
    (hc : s.origPolys.length ≤ s.processedPolysColor.length)
    (h1 : s.params.path.smoothAmount ≤ 0) (h2 : s.params.path.optimizeTolerance ≤ 0)
    (h3 : s.params.path.targetPointCount ≤ 0) (h4 : s.params.path.spacing = 0) :
    ∃ s', s.update P = some s'
      ∧ s'.processedPolys = s.origPolys
      ∧ s'.stats.pointCountProcessed = s'.stats.pointCountOrig
      ∧ s'.stats.pointCountOrig = pointCount s.origPolys
      ∧ ∀ Q : PolyPrims, s.update Q = some s' := by
  have hP := processedSpec_disabled P s.params.path s.origPolys h1 h2 h3 h4
  refine ⟨s.afterPass P, update_eq P s hc, hP.2, ?_, rfl, ?_⟩
  · show pointCount (processedSpec P s.params.path s.origPolys) = pointCount s.origPolys
    rw [hP.2]
  · intro Q
    have hQ := processedSpec_disabled Q s.params.path s.origPolys h1 h2 h3 h4
    rw [update_eq Q s hc]
    simp only [Frame.afterPass, hP.1, hP.2, hQ.1, hQ.2]

/-- C7 (witness): the frame with one added path and every path parameter zero. -/
theorem disabled_stages_noop_witness :
    ∃ s', disabledFrame.update samplePrims = some s'
      ∧ s'.processedPolys = disabledFrame.origPolys
      ∧ s'.stats.pointCountProcessed = s'.stats.pointCountOrig
      ∧ s'.stats.pointCountOrig = pointCount disabledFrame.origPolys
      ∧ ∀ Q : PolyPrims, disabledFrame.update Q = some s' :=
  disabled_stages_noop samplePrims disabledFrame (by decide) (by decide) (le_refl _)
    (by decide) rfl

/-- C8: for every frame state (with a colour for every path) a processing pass returns a
state on which a second pass returns that same state; so the two agree on the processed
paths, the final point list and both point counts, although the first pass may rewrite
`params.path.spacing`. -/
theorem update_idempotent (P : PolyPrims) (s : Frame)
    (hc : s.origPolys.length ≤ s.processedPolysColor.length) :
    ∃ s', s.update P = some s' ∧ s'.update P = some s' := by
  refine ⟨s.afterPass P, update_eq P s hc, ?_⟩
  rw [update_eq P (s.afterPass P) hc, afterPass_idem]

/-- C8 (witness): the two-path frame, whose first pass rewrites the spacing. -/
theorem update_idempotent_witness :
    ∃ s', twoPathFrame.update samplePrims = some s' ∧ s'.update samplePrims = some s' :=
  update_idempotent samplePrims twoPathFrame (by decide)

/-- C9: every sequence of interface calls (`addPoly`, `getLastPoly`, `clear`, `update`,
`updateFinalPoints`, parameter writes) on a newly constructed frame reaches a state, and an
`update` on that state returns a state in which the number of processed paths, the number
of original paths and the number of colours are equal, the number of original paths being
what it was before the update (empty paths keep their slot). -/
theorem update_index_aligned (P : PolyPrims) (ops : List Op) :
    ∃ s s', runOps P ops Frame.new = some s ∧ s.update P = some s'
      ∧ s'.processedPolys.length = s'.origPolys.length
      ∧ s'.origPolys.length = s'.processedPolysColor.length
      ∧ s'.origPolys.length = s.origPolys.length := by
  obtain ⟨s, hs, h1, _⟩ := aligned_runOps P ops Frame.new aligned_new
  refine ⟨s, s.afterPass P, hs, update_eq P s (by omega), ?_, ?_, rfl⟩
  · exact processedSpec_length P s.params.path s.origPolys
  · exact h1.symm

/-- C10: for every frame state (with a colour for every path) a processing pass returns a
state whose original paths and per-path colours are exactly those before the call; the
state differs from the one before only in `params.path.spacing`, `stats`, the processed
paths and the final points. -/
theorem update_preserves_inputs (P : PolyPrims) (s : Frame)
    (hc : s.origPolys.length ≤ s.processedPolysColor.length) :
    ∃ s', s.update P = some s'
      ∧ s'.origPolys = s.origPolys
      ∧ s'.processedPolysColor = s.processedPolysColor
      ∧ ∃ (spacing : ℚ) (stats : Stats) (processedPolys : List ofPolyline)
          (points : List Point),
          s' = { s with
                 params := { s.params with path := { s.params.path with spacing := spacing } }
                 stats := stats
                 processedPolys := processedPolys
                 points := points } :=
  ⟨s.afterPass P, update_eq P s hc, rfl, rfl, _, _, _, _, rfl⟩

/-- C10 (witness): the two-path frame. -/
theorem update_preserves_inputs_witness :
    ∃ s', twoPathFrame.update samplePrims = some s'
      ∧ s'.origPolys = twoPathFrame.origPolys
      ∧ s'.processedPolysColor = twoPathFrame.processedPolysColor :=
  have ⟨s', h1, h2, h3, _⟩ := update_preserves_inputs samplePrims twoPathFrame (by decide)
  ⟨s', h1, h2, h3⟩

/-! ## Scenario, colours and dwell points -/

theorem capOrWrap_inside (doCap : Bool) (c : ℚ) (h0 : 0 ≤ c) (h1 : c ≤ 1) :
    capOrWrap doCap c = c := by
  unfold capOrWrap
  rw [if_neg (not_lt.mpr h0), if_neg (not_lt.mpr h1)]

theorem transformPoint_identity_inside (params : Params) (p : ofPoint)
    (hfx : params.output.transform.doFlipX = false)
    (hfy : params.output.transform.doFlipY = false)
    (hs : params.output.transform.scale = ⟨1, 1⟩)
    (ho : params.output.transform.offset = ⟨0, 0⟩)
    (hx0 : 0 ≤ p.x) (hx1 : p.x ≤ 1) (hy0 : 0 ≤ p.y) (hy1 : p.y ≤ 1) :
    transformPoint params p = p := by
  have hb := beforeCapOrWrap_identity params p hfx hfy hs ho
  unfold transformPoint
  simp only [hb, capOrWrap_inside _ _ hx0 hx1, capOrWrap_inside _ _ hy0 hy1]

/-- C11: in the unit-square scenario a processing pass (with any polyline primitives)
returns a state whose one processed path is the four input points and whose final point
list has exactly these 10 entries: two at `(0,0)` with colour `(0,0,0,0)`, one at `(0,0)`
with colour `(1,1,1,1)`, the corners `(0,0),(1,0),(1,1),(0,1)` with colour `(1,1,1,1)`, one
at `(0,1)` with colour `(1,1,1,1)` and two at `(0,1)` with colour `(0,0,0,0)`. -/
theorem unit_square_scenario (P : PolyPrims) :
    ∃ s', scenarioFrame.update P = some s'
      ∧ s'.processedPolys = [ofPolyline.ofPoints [⟨0, 0⟩, ⟨1, 0⟩, ⟨1, 1⟩, ⟨0, 1⟩]]
      ∧ s'.points.length = 10
      ∧ s'.points =
        [ ⟨⟨0, 0⟩, ⟨0, 0, 0, 0⟩⟩, ⟨⟨0, 0⟩, ⟨0, 0, 0, 0⟩⟩,
          ⟨⟨0, 0⟩, ⟨1, 1, 1, 1⟩⟩,
          ⟨⟨0, 0⟩, ⟨1, 1, 1, 1⟩⟩, ⟨⟨1, 0⟩, ⟨1, 1, 1, 1⟩⟩, ⟨⟨1, 1⟩, ⟨1, 1, 1, 1⟩⟩,
          ⟨⟨0, 1⟩, ⟨1, 1, 1, 1⟩⟩,
          ⟨⟨0, 1⟩, ⟨1, 1, 1, 1⟩⟩,
          ⟨⟨0, 1⟩, ⟨0, 0, 0, 0⟩⟩, ⟨⟨0, 1⟩, ⟨0, 0, 0, 0⟩⟩ ] := by
  have hP := processedSpec_disabled P scenarioFrame.params.path scenarioFrame.origPolys
    (le_refl _) (le_refl _) (le_refl _) rfl
  have hT : ∀ (params : Params) (p : ofPoint),
      params.output.transform = defaultParams.output.transform →
      0 ≤ p.x → p.x ≤ 1 → 0 ≤ p.y → p.y ≤ 1 → transformPoint params p = p := by
    intro params p ht
    exact transformPoint_identity_inside params p (by rw [ht]; rfl) (by rw [ht]; rfl)
      (by rw [ht]; rfl) (by rw [ht]; rfl)
  have hpts : (scenarioFrame.afterPass P).points =
      [ ⟨⟨0, 0⟩, ⟨0, 0, 0, 0⟩⟩, ⟨⟨0, 0⟩, ⟨0, 0, 0, 0⟩⟩,
        ⟨⟨0, 0⟩, ⟨1, 1, 1, 1⟩⟩,
        ⟨⟨0, 0⟩, ⟨1, 1, 1, 1⟩⟩, ⟨⟨1, 0⟩, ⟨1, 1, 1, 1⟩⟩, ⟨⟨1, 1⟩, ⟨1, 1, 1, 1⟩⟩,
        ⟨⟨0, 1⟩, ⟨1, 1, 1, 1⟩⟩,
        ⟨⟨0, 1⟩, ⟨1, 1, 1, 1⟩⟩,
        ⟨⟨0, 1⟩, ⟨0, 0, 0, 0⟩⟩, ⟨⟨0, 1⟩, ⟨0, 0, 0, 0⟩⟩ ] := by
    show finalPointsSpec _ _ _ (processedSpec P scenarioFrame.params.path
      scenarioFrame.origPolys) _ = _
    rw [hP.2]
    have h00 := hT (scenarioFrame.afterPass P).params ⟨0, 0⟩ rfl (by norm_num) (by norm_num)
      (by norm_num) (by norm_num)
    have h10 := hT (scenarioFrame.afterPass P).params ⟨1, 0⟩ rfl (by norm_num) (by norm_num)
      (by norm_num) (by norm_num)
    have h11 := hT (scenarioFrame.afterPass P).params ⟨1, 1⟩ rfl (by norm_num) (by norm_num)
      (by norm_num) (by norm_num)
    have h01 := hT (scenarioFrame.afterPass P).params ⟨0, 1⟩ rfl (by norm_num) (by norm_num)
      (by norm_num) (by norm_num)
    show finalPointsSpec (scenarioFrame.afterPass P).params 2 1
        [ofPolyline.ofPoints [⟨0, 0⟩, ⟨1, 0⟩, ⟨1, 1⟩, ⟨0, 1⟩]] [⟨1, 1, 1, 1⟩] = _
    simp only [finalPointsSpec, segmentSpec, ofPolyline.ofPoints, List.zipWith_cons_cons,
      List.zipWith_nil_left, List.flatten_cons, List.flatten_nil, List.getLast_cons_cons,
      List.getLast_singleton, List.map_cons, List.map_nil, h00, h10, h11, h01,
      List.replicate, blankColor, List.append_nil, List.cons_append, List.nil_append,
      List.singleton_append]
  refine ⟨scenarioFrame.afterPass P, update_eq P scenarioFrame (by decide), ?_, ?_, hpts⟩
  · show processedSpec P scenarioFrame.params.path scenarioFrame.origPolys = _
    rw [hP.2]; rfl
  · rw [hpts]; rfl

theorem emittedSegment_eq (params : Params) (points : List Point) (poly : ofPolyline)
    (pcolor : ofFloatColor) :
    emittedSegment params points poly pcolor
      = segmentSpec params params.output.blankCount.toNat params.output.endCount.toNat
          poly pcolor := by
  unfold emittedSegment
  rw [emitPoly_eq, List.drop_left]

theorem segmentSpec_blanks (params : Params) (b e : Nat) (poly : ofPolyline)
    (c : ofFloatColor) (v : ofPoint) (vs : List ofPoint) (h : poly.vertices = v :: vs) :
    (segmentSpec params b e poly c).take b
        = List.replicate b (Point.mk (transformPoint params v) blankColor)
      ∧ (segmentSpec params b e poly c).drop ((segmentSpec params b e poly c).length - b)
        = List.replicate b
            (Point.mk (transformPoint params ((v :: vs).getLast (List.cons_ne_nil v vs)))
              blankColor) := by
  have hseg : segmentSpec params b e poly c
      = List.replicate b (Point.mk (transformPoint params v) blankColor)
        ++ (List.replicate e (Point.mk (transformPoint params v) c)
          ++ (v :: vs).map (fun w => Point.mk (transformPoint params w) c)
          ++ List.replicate e
            (Point.mk (transformPoint params ((v :: vs).getLast (List.cons_ne_nil v vs))) c))
        ++ List.replicate b
            (Point.mk (transformPoint params ((v :: vs).getLast (List.cons_ne_nil v vs)))
              blankColor) := by
    unfold segmentSpec
    rw [h]
    simp only [List.append_assoc]
  constructor
  · rw [hseg, List.append_assoc, List.take_left' (List.length_replicate _ _)]
  · rw [hseg, List.length_append, List.length_replicate, Nat.add_sub_cancel, List.drop_left]

theorem segmentSpec_outputColor (params : Params) (color : ofFloatColor) (b e : Nat)
    (poly : ofPolyline) (c : ofFloatColor) :
    segmentSpec (withOutputColor params color) b e poly c = segmentSpec params b e poly c :=
  rfl

/-- C12: for every configuration and every non-empty path, the segment that
`updateFinalPoints` emits for the path has `blankCount` leading and `blankCount` trailing
blank-dwell entries, each of them with colour `(0,0,0,0)` whatever the output colour and
the path colour are; and a run with any other output colour and any other path colour
emits the same leading and the same trailing blank-dwell entries. -/
theorem blank_dwell_alpha (params : Params) (points : List Point) (poly : ofPolyline)
    (pcolor : ofFloatColor) (h : poly.size ≠ 0) :
    (leadingBlanks params (emittedSegment params points poly pcolor)).length
        = params.output.blankCount.toNat
      ∧ (trailingBlanks params (emittedSegment params points poly pcolor)).length
        = params.output.blankCount.toNat
      ∧ (∀ pt ∈ leadingBlanks params (emittedSegment params points poly pcolor)
            ++ trailingBlanks params (emittedSegment params points poly pcolor),
          pt.color.a = 0 ∧ pt.color.r = 0 ∧ pt.color.g = 0 ∧ pt.color.b = 0)
      ∧ ∀ (color pcolor' : ofFloatColor) (points' : List Point),
          leadingBlanks (withOutputColor params color)
              (emittedSegment (withOutputColor params color) points' poly pcolor')
            = leadingBlanks params (emittedSegment params points poly pcolor)
          ∧ trailingBlanks (withOutputColor params color)
              (emittedSegment (withOutputColor params color) points' poly pcolor')
            = trailingBlanks params (emittedSegment params points poly pcolor) := by
  obtain ⟨v, vs, hv⟩ : ∃ v vs, poly.vertices = v :: vs := by
    cases hp : poly.vertices with
    | nil => exact absurd (by simp [ofPolyline.size, hp]) h
    | cons v vs => exact ⟨v, vs, rfl⟩
  have key : ∀ (c : ofFloatColor) (pts : List Point),
      leadingBlanks params (emittedSegment params pts poly c)
          = List.replicate params.output.blankCount.toNat
              (Point.mk (transformPoint params v) blankColor)
        ∧ trailingBlanks params (emittedSegment params pts poly c)
          = List.replicate params.output.blankCount.toNat
              (Point.mk (transformPoint params ((v :: vs).getLast (List.cons_ne_nil v vs)))
                blankColor) := by
    intro c pts
    unfold leadingBlanks trailingBlanks
    rw [emittedSegment_eq]
    exact segmentSpec_blanks params _ _ poly c v vs hv
  refine ⟨?_, ?_, ?_, ?_⟩
  · rw [(key pcolor points).1, List.length_replicate]
  · rw [(key pcolor points).2, List.length_replicate]
  · intro pt hpt
    rw [(key pcolor points).1, (key pcolor points).2, List.mem_append] at hpt
    rcases hpt with hpt | hpt <;>
      · rw [List.eq_of_mem_replicate hpt]
        exact ⟨rfl, rfl, rfl, rfl⟩
  · intro color pcolor' points'
    have h1 : leadingBlanks (withOutputColor params color)
          (emittedSegment (withOutputColor params color) points' poly pcolor')
        = leadingBlanks params (emittedSegment params points' poly pcolor') := by
      unfold leadingBlanks
      rw [emittedSegment_eq, emittedSegment_eq]
      rfl
    have h2 : trailingBlanks (withOutputColor params color)
          (emittedSegment (withOutputColor params color) points' poly pcolor')
        = trailingBlanks params (emittedSegment params points' poly pcolor') := by
      unfold trailingBlanks
      rw [emittedSegment_eq, emittedSegment_eq]
      rfl
    rw [h1, h2, (key pcolor' points').1, (key pcolor' points').2, (key pcolor points).1,
      (key pcolor points).2]
    exact ⟨rfl, rfl⟩

/-- C12 (witness): the square path with `blankCount = 2`, `endCount = 1` and a red path
colour, compared with a run under a green output colour and a blue path colour. -/
theorem blank_dwell_alpha_witness :
    (leadingBlanks squareFrame.params
        (emittedSegment squareFrame.params [] (ofPolyline.ofPoints squarePoints)
          ⟨1, 0, 0, 1⟩)).length = 2
      ∧ leadingBlanks (withOutputColor squareFrame.params ⟨0, 1, 0, 1⟩)
          (emittedSegment (withOutputColor squareFrame.params ⟨0, 1, 0, 1⟩) []
            (ofPolyline.ofPoints squarePoints) ⟨0, 0, 1, 1⟩)
        = leadingBlanks squareFrame.params
          (emittedSegment squareFrame.params [] (ofPolyline.ofPoints squarePoints)
            ⟨1, 0, 0, 1⟩) :=
  have h := blank_dwell_alpha squareFrame.params [] (ofPolyline.ofPoints squarePoints)
    ⟨1, 0, 0, 1⟩ (by decide)
  ⟨h.1, (h.2.2.2 ⟨0, 1, 0, 1⟩ ⟨0, 0, 1, 1⟩ []).1⟩

/-! ## Theorems on colours and spacing -/

theorem segmentSpec_visible (params : Params) (b e : Nat) (poly : ofPolyline)
    (c : ofFloatColor) :
    ∀ pt ∈ visiblePoints b (segmentSpec params b e poly c), pt.color = c := by
  unfold visiblePoints
  cases hv : poly.vertices with
  | nil =>
    intro pt hpt
    simp [segmentSpec, hv] at hpt
  | cons v vs =>
    have hseg : segmentSpec params b e poly c
        = List.replicate b (Point.mk (transformPoint params v) blankColor)
          ++ ((List.replicate e (Point.mk (transformPoint params v) c)
            ++ (v :: vs).map (fun w => Point.mk (transformPoint params w) c)
            ++ List.replicate e
              (Point.mk (transformPoint params ((v :: vs).getLast (List.cons_ne_nil v vs))) c))
          ++ List.replicate b
              (Point.mk (transformPoint params ((v :: vs).getLast (List.cons_ne_nil v vs)))
                blankColor)) := by
      unfold segmentSpec
      rw [hv]
      simp only [List.append_assoc]
    intro pt hpt
    rw [hseg, List.drop_left' (List.length_replicate _ _)] at hpt
    have hlen : (List.replicate b (Point.mk (transformPoint params v) blankColor)
          ++ ((List.replicate e (Point.mk (transformPoint params v) c)
            ++ (v :: vs).map (fun w => Point.mk (transformPoint params w) c)
            ++ List.replicate e
              (Point.mk (transformPoint params ((v :: vs).getLast (List.cons_ne_nil v vs))) c))
          ++ List.replicate b
              (Point.mk (transformPoint params ((v :: vs).getLast (List.cons_ne_nil v vs)))
                blankColor))).length - 2 * b
        = (List.replicate e (Point.mk (transformPoint params v) c)
            ++ (v :: vs).map (fun w => Point.mk (transformPoint params w) c)
            ++ List.replicate e
              (Point.mk (transformPoint params ((v :: vs).getLast (List.cons_ne_nil v vs)))
                c)).length := by
      simp only [List.length_append, List.length_replicate]
      omega
    rw [hlen, List.take_left] at hpt
    simp only [List.mem_append, List.mem_replicate, List.mem_map] at hpt
    rcases hpt with (⟨_, h⟩ | ⟨w, _, h⟩) | ⟨_, h⟩
    · rw [h]
    · rw [← h]
    · rw [h]

/-- C14: `addPoly(p)` appends `p` as the last original path and the output colour of that
moment as the last path colour and increases `size()` by one; writing other parameters
afterwards leaves the recorded colours as they are, and the next processing pass builds the
final point list from the segments of the processed paths with those recorded colours, every
visible (non-blank) point of a segment carrying the recorded colour of its path. -/
theorem addPoly_colour_fixed (P : PolyPrims) (s : Frame) (p : ofPolyline) (params' : Params)
    (hc : s.processedPolysColor.length = s.origPolys.length) :
    (s.addPoly p).origPolys = s.origPolys ++ [p]
      ∧ (s.addPoly p).processedPolysColor = s.processedPolysColor ++ [s.params.output.color]
      ∧ (s.addPoly p).size = s.size + 1
      ∧ ((s.addPoly p).withParams params').processedPolysColor
          = s.processedPolysColor ++ [s.params.output.color]
      ∧ (s.processedPolysColor ++ [s.params.output.color])[s.origPolys.length]?
          = some s.params.output.color
      ∧ ∃ s', ((s.addPoly p).withParams params').update P = some s'
          ∧ s'.processedPolysColor = s.processedPolysColor ++ [s.params.output.color]
          ∧ s'.processedPolys.length = s.origPolys.length + 1
          ∧ s'.points
              = (List.zipWith
                  (segmentSpec s'.params params'.output.blankCount.toNat
                    params'.output.endCount.toNat)
                  s'.processedPolys
                  (s.processedPolysColor ++ [s.params.output.color])).flatten
          ∧ ∀ (poly : ofPolyline) (c : ofFloatColor),
              ∀ pt ∈ visiblePoints params'.output.blankCount.toNat
                  (segmentSpec s'.params params'.output.blankCount.toNat
                    params'.output.endCount.toNat poly c),
                pt.color = c := by
  refine ⟨rfl, rfl, ?_, rfl, ?_, ?_⟩
  · simp [Frame.size, Frame.addPoly]
  · rw [← hc, List.getElem?_append_right (le_refl _)]
    simp
  · have hc' : ((s.addPoly p).withParams params').origPolys.length
        ≤ ((s.addPoly p).withParams params').processedPolysColor.length := by
      simp [Frame.withParams, Frame.addPoly, hc]
    refine ⟨_, update_eq P _ hc', rfl, ?_, rfl, ?_⟩
    · show (processedSpec P _ _).length = _
      rw [processedSpec_length]
      simp [Frame.withParams, Frame.addPoly]
    · intro poly c
      exact segmentSpec_visible _ _ _ poly c

/-- C14 (witness): the square path added to a new frame under a red output colour, the
output colour then being changed to green before the pass. -/
theorem addPoly_colour_fixed_witness :
    ∃ s', (((Frame.new.withParams (withOutputColor defaultParams ⟨1, 0, 0, 1⟩)).addPoly
              (ofPolyline.ofPoints squarePoints)).withParams
            (withOutputColor defaultParams ⟨0, 1, 0, 1⟩)).update samplePrims = some s'
      ∧ s'.processedPolysColor = [⟨1, 0, 0, 1⟩] :=
  have ⟨s', h1, h2, _⟩ := (addPoly_colour_fixed samplePrims
    (Frame.new.withParams (withOutputColor defaultParams ⟨1, 0, 0, 1⟩))
    (ofPolyline.ofPoints squarePoints) (withOutputColor defaultParams ⟨0, 1, 0, 1⟩)
    rfl).2.2.2.2.2
  ⟨s', h1, h2⟩

theorem pointFrame_spacingAfter (a : ℚ) :
    spacingAfter samplePrims (pointFrame a).params.path (pointFrame a).origPolys = a := by
  have hL : totalLengthSpec samplePrims (pointFrame a).params.path (pointFrame a).origPolys
      = 0 := by
    have hf : ((pointFrame a).origPolys.filter (fun p => decide (p.size ≠ 0)))
        = [ofPolyline.ofPoints [⟨1/2, 1/2⟩]] := rfl
    unfold totalLengthSpec
    rw [hf]
    simp only [List.map_cons, List.map_nil, List.sum_cons, List.sum_nil, add_zero]
    rfl
  unfold spacingAfter
  rw [hL, if_neg (fun h => absurd h.2 (lt_irrefl _))]
  rfl

/-- C15 (counterexample): two frames with `targetPointCount = 500` and one single-vertex
path (total length 0) that differ only in the stored spacing, 5 and 7: after a processing
pass the first still has spacing 5 and the second spacing 7, and each pass handed its own
stored value to the resampler. -/
theorem stale_spacing_survives :
    pointFrame 7 = (pointFrame 5).withSpacing 7
      ∧ (pointFrame 5).params.path.targetPointCount > 0
      ∧ ∃ s₅ s₇, (pointFrame 5).update samplePrims = some s₅
          ∧ (pointFrame 7).update samplePrims = some s₇
          ∧ s₅.params.path.spacing = 5 ∧ s₇.params.path.spacing = 7
          ∧ s₅.params.path.spacing ≠ s₇.params.path.spacing
          ∧ s₅.processedPolys
              = (pointFrame 5).origPolys.map (fun p => samplePrims.getResampledBySpacing p 5)
          ∧ s₇.processedPolys
              = (pointFrame 7).origPolys.map (fun p => samplePrims.getResampledBySpacing p 7) := by
  have h5 := pointFrame_spacingAfter 5
  have h7 := pointFrame_spacingAfter 7
  have hp : ∀ a : ℚ, a ≠ 0 →
      processedSpec samplePrims (pointFrame a).params.path (pointFrame a).origPolys
        = (pointFrame a).origPolys.map (fun p => samplePrims.getResampledBySpacing p a) := by
    intro a ha
    unfold processedSpec
    rw [pointFrame_spacingAfter a, if_pos ha]
    rfl
  refine ⟨rfl, by decide, (pointFrame 5).afterPass samplePrims,
    (pointFrame 7).afterPass samplePrims, update_eq _ _ (by decide),
    update_eq _ _ (by decide), h5, h7, ?_, hp 5 (by norm_num), hp 7 (by norm_num)⟩
  show spacingAfter samplePrims (pointFrame 5).params.path (pointFrame 5).origPolys
    ≠ spacingAfter samplePrims (pointFrame 7).params.path (pointFrame 7).origPolys
  rw [h5, h7]
  norm_num

/-- C15 (amended): for every frame with `targetPointCount > 0` and total length `L > 0` (and
a colour for every path), the spacing after a processing pass is `L / targetPointCount`,
computed from the current paths alone: two passes on states that differ only in the spacing
held before the pass return the same state, so the same spacing and the same processed
paths. -/
theorem spacing_recomputed (P : PolyPrims) (s : Frame) (a b : ℚ)
    (hc : s.origPolys.length ≤ s.processedPolysColor.length)
    (ht : s.params.path.targetPointCount > 0)
    (hL : totalLengthSpec P s.params.path s.origPolys > 0) :
    ∃ s', (s.withSpacing a).update P = some s'
      ∧ (s.withSpacing b).update P = some s'
      ∧ s'.params.path.spacing
          = totalLengthSpec P s.params.path s.origPolys
            / (s.params.path.targetPointCount : ℚ) := by
  have hsp : ∀ c : ℚ, spacingAfter P (s.withSpacing c).params.path s.origPolys
      = totalLengthSpec P s.params.path s.origPolys
        / (s.params.path.targetPointCount : ℚ) := by
    intro c
    exact (spacingAfter_pos P (s.withSpacing c).params.path s.origPolys ht hL).1
  have hpp : ∀ c : ℚ, processedSpec P (s.withSpacing c).params.path s.origPolys
      = s.origPolys.map (fun p => P.getResampledBySpacing (stagedPoly P s.params.path p)
          (totalLengthSpec P s.params.path s.origPolys
            / (s.params.path.targetPointCount : ℚ))) := by
    intro c
    have hne := (spacingAfter_pos P (s.withSpacing c).params.path s.origPolys ht hL).2
    unfold processedSpec
    rw [if_pos hne, hsp c]
    rfl
  have hab : (s.withSpacing a).afterPass P = (s.withSpacing b).afterPass P := by
    have ha1 := hsp a
    have hb1 := hsp b
    have ha2 := hpp a
    have hb2 := hpp b
    simp only [Frame.withSpacing] at ha1 hb1 ha2 hb2
    simp only [Frame.afterPass, Frame.withSpacing, ha1, hb1, ha2, hb2]
  refine ⟨(s.withSpacing a).afterPass P, update_eq P _ hc, ?_, hsp a⟩
  rw [hab]
  exact update_eq P _ hc

/-- C15 (witness): the two-path frame (total length 10, `targetPointCount = 100`) with the
stored spacings 5 and 7. -/
theorem spacing_recomputed_witness :
    ∃ s', (twoPathFrame.withSpacing 5).update samplePrims = some s'
      ∧ (twoPathFrame.withSpacing 7).update samplePrims = some s'
      ∧ s'.params.path.spacing
          = totalLengthSpec samplePrims twoPathFrame.params.path twoPathFrame.origPolys
            / (twoPathFrame.params.path.targetPointCount : ℚ) :=
  spacing_recomputed samplePrims twoPathFrame 5 7 (by decide) (by decide)
    (by rw [twoPathFrame_totalLength]; norm_num)

theorem stagedPoly_eq_stages (P : PolyPrims) (path : PathParams) (p : ofPolyline) :
    stagedPoly P path p
      = if p.size ≠ 0 then stageSimplify P path (stageSmooth P path p) else p := rfl

theorem processedSpec_eq_stageOrder (P : PolyPrims) (path : PathParams)
    (polys : List ofPolyline) :
    processedSpec P path polys
      = polys.map (stageOrderSpec P path (spacingAfter P path polys)) := by
  unfold processedSpec
  by_cases h : spacingAfter P path polys ≠ 0
  · rw [if_pos h]
    apply List.map_congr_left
    intro p _
    unfold stageOrderSpec stageResample
    rw [if_pos h, if_pos h, stagedPoly_eq_stages]
    split_ifs <;> rfl
  · rw [if_neg h]
    apply List.map_congr_left
    intro p _
    unfold stageOrderSpec stageResample
    rw [if_neg h, if_neg h, stagedPoly_eq_stages]

/-- C16: for every frame (with a colour for every path) a processing pass returns a state
with as many processed paths as original paths, in which the processed path at each index
is `R(S2(S1(p)))` for a non-empty original path `p` at that index and `R(p)` for an empty
one, where S1 smooths when `smoothAmount > 0`, S2 simplifies when `optimizeTolerance > 0`
and R resamples by the spacing the pass ends with when that spacing is not zero. -/
theorem stage_order (P : PolyPrims) (s : Frame)
    (hc : s.origPolys.length ≤ s.processedPolysColor.length) :
    ∃ s', s.update P = some s'
      ∧ s'.processedPolys.length = s.origPolys.length
      ∧ s'.processedPolys
          = s.origPolys.map (stageOrderSpec P s.params.path s'.params.path.spacing)
      ∧ ∀ (i : Nat) (p : ofPolyline), s.origPolys[i]? = some p →
          (p.size ≠ 0 → s'.processedPolys[i]?
            = some (stageResample P s'.params.path.spacing
                (stageSimplify P s.params.path (stageSmooth P s.params.path p))))
          ∧ (p.size = 0 → s'.processedPolys[i]?
            = some (stageResample P s'.params.path.spacing p)) := by
  have hpp : (s.afterPass P).processedPolys
      = s.origPolys.map (stageOrderSpec P s.params.path (s.afterPass P).params.path.spacing) :=
    processedSpec_eq_stageOrder P s.params.path s.origPolys
  refine ⟨s.afterPass P, update_eq P s hc, processedSpec_length P _ _, hpp, ?_⟩
  intro i p hi
  have hget : (s.afterPass P).processedPolys[i]?
      = some (stageOrderSpec P s.params.path (s.afterPass P).params.path.spacing p) := by
    rw [hpp, List.getElem?_map, hi]
    rfl
  constructor
  · intro hp
    rw [hget]
    unfold stageOrderSpec
    rw [if_pos hp]
  · intro hp
    rw [hget]
    unfold stageOrderSpec
    rw [if_neg (not_not.mpr hp)]

/-- C16 (witness): with primitives that record their call, the one-vertex path comes out as
smoothed, then simplified, then resampled, and the empty path as resampled only. -/
theorem stage_order_witness :
    ∃ s', stagesFrame.update tracePrims = some s'
      ∧ s'.processedPolys.length = 2
      ∧ s'.processedPolys
          = [ofPolyline.ofPoints [⟨0, 0⟩, ⟨1, 0⟩, ⟨2, 0⟩, ⟨3, 0⟩],
             ofPolyline.ofPoints [⟨3, 0⟩]] := by
  obtain ⟨s', h1, h2, h3, _⟩ := stage_order tracePrims stagesFrame (by decide)
  have hs : s' = stagesFrame.afterPass tracePrims := by
    have h := update_eq tracePrims stagesFrame (by decide)
    rw [h1] at h
    exact Option.some.inj h
  have hsp : s'.params.path.spacing = 1 / 10 := by
    rw [hs]
    show spacingAfter tracePrims stagesFrame.params.path stagesFrame.origPolys = 1 / 10
    unfold spacingAfter
    rw [if_neg (fun h => absurd h.1 (by decide))]
    rfl
  refine ⟨s', h1, h2, ?_⟩
  rw [h3, hsp]
  have ho : stagesFrame.origPolys = [ofPolyline.ofPoints [⟨0, 0⟩], ofPolyline.empty] := rfl
  have h10 : (1 / 10 : ℚ) ≠ 0 := by norm_num
  have hsm : stagesFrame.params.path.smoothAmount > 0 := by decide
  have hto : stagesFrame.params.path.optimizeTolerance > 0 := by
    show (0 : ℚ) < 1 / 100
    norm_num
  rw [ho]
  simp only [List.map_cons, List.map_nil, stageOrderSpec, stageResample, stageSimplify,
    stageSmooth, if_pos h10, if_pos hsm, if_pos hto]
  rfl

/-! ## Theorems on dwell counts and index safety -/

theorem emitPoly_congr_counts (params params' : Params)
    (hb : params.output.blankCount.toNat = params'.output.blankCount.toNat)
    (he : params.output.endCount.toNat = params'.output.endCount.toNat)
    (ht : ∀ v, transformPoint params v = transformPoint params' v) :
    ∀ (points : List Point) (poly : ofPolyline) (pcolor : ofFloatColor),
      emitPoly params points poly pcolor = emitPoly params' points poly pcolor := by
  intro points poly pcolor
  rw [emitPoly_eq, emitPoly_eq, hb, he]
  have hT : transformPoint params = transformPoint params' := funext ht
  unfold segmentSpec
  rw [hT]

theorem assemblePoints_congr (params params' : Params)
    (h : ∀ (points : List Point) (poly : ofPolyline) (pcolor : ofFloatColor),
      emitPoly params points poly pcolor = emitPoly params' points poly pcolor)
    (polys : List ofPolyline) (colors : List ofFloatColor) :
    assemblePoints params polys colors = assemblePoints params' polys colors := by
  unfold assemblePoints
  simp only [h]

theorem foldlM_range_lookup_none {α β γ : Type} (f : β → α → γ → β) :
    ∀ (xs : List α) (ys : List γ) (init : β), ys.length < xs.length →
      (List.range xs.length).foldlM
        (fun acc i => (xs[i]?).bind fun x => (ys[i]?).bind fun y => some (f acc x y)) init
      = none := by
  intro xs
  induction xs with
  | nil => intro ys init h; simp at h
  | cons x xs ih =>
    intro ys init h
    rw [List.length_cons, List.range_succ_eq_map, List.foldlM_cons]
    cases ys with
    | nil => simp
    | cons y ys =>
      simp only [List.length_cons, Nat.add_lt_add_iff_right] at h
      simp only [List.getElem?_cons_zero, Option.bind_eq_bind, Option.some_bind,
        List.foldlM_map, List.getElem?_cons_succ]
      exact ih ys (f init x y) h

theorem updateFinalPoints_none (s : Frame)
    (h : s.processedPolysColor.length < s.processedPolys.length) :
    s.updateFinalPoints = none := by
  have key := foldlM_range_lookup_none (fun acc x y => emitPoly s.params acc x y)
    s.processedPolys s.processedPolysColor [] h
  unfold Frame.updateFinalPoints assemblePoints
  simp only [Option.bind_eq_bind, Option.pure_def] at key ⊢
  rw [key]
  rfl

/-- C19: for every frame state, the final point list built by `updateFinalPoints` with a
negative `blankCount` is the one built with `blankCount = 0`, and with a negative `endCount`
the one built with `endCount = 0`; a non-empty path of `N` vertices gets a segment of
`2*max(0,blankCount) + 2*max(0,endCount) + N` entries; and the list is built whenever every
processed path has its colour. -/
theorem negative_dwell_as_zero (s : Frame) :
    (s.params.output.blankCount < 0 →
      s.updateFinalPoints.map (fun s' => s'.points)
        = (s.withBlankCount 0).updateFinalPoints.map (fun s' => s'.points))
    ∧ (s.params.output.endCount < 0 →
      s.updateFinalPoints.map (fun s' => s'.points)
        = (s.withEndCount 0).updateFinalPoints.map (fun s' => s'.points))
    ∧ (∀ (points : List Point) (poly : ofPolyline) (pcolor : ofFloatColor), poly.size ≠ 0 →
        ((emittedSegment s.params points poly pcolor).length : Int)
          = 2 * max 0 s.params.output.blankCount + 2 * max 0 s.params.output.endCount
            + (poly.size : Int))
    ∧ (s.processedPolys.length ≤ s.processedPolysColor.length →
        ∃ points, s.updateFinalPoints.map (fun s' => s'.points) = some points) := by
  refine ⟨?_, ?_, ?_, ?_⟩
  · intro h
    have hc := assemblePoints_congr s.params (s.withBlankCount 0).params
      (emitPoly_congr_counts _ _
        (by
          show s.params.output.blankCount.toNat = (0 : Int).toNat
          rw [Int.toNat_eq_zero.mpr h.le]; rfl)
        rfl (fun _ => rfl))
      s.processedPolys s.processedPolysColor
    unfold Frame.updateFinalPoints
    show Option.map _ (Option.bind (assemblePoints s.params s.processedPolys
        s.processedPolysColor) _)
      = Option.map _ (Option.bind (assemblePoints (s.withBlankCount 0).params
        s.processedPolys s.processedPolysColor) _)
    rw [hc]
    cases assemblePoints (s.withBlankCount 0).params s.processedPolys s.processedPolysColor
      <;> rfl
  · intro h
    have hc := assemblePoints_congr s.params (s.withEndCount 0).params
      (emitPoly_congr_counts _ _ rfl
        (by
          show s.params.output.endCount.toNat = (0 : Int).toNat
          rw [Int.toNat_eq_zero.mpr h.le]; rfl)
        (fun _ => rfl))
      s.processedPolys s.processedPolysColor
    unfold Frame.updateFinalPoints
    show Option.map _ (Option.bind (assemblePoints s.params s.processedPolys
        s.processedPolysColor) _)
      = Option.map _ (Option.bind (assemblePoints (s.withEndCount 0).params
        s.processedPolys s.processedPolysColor) _)
    rw [hc]
    cases assemblePoints (s.withEndCount 0).params s.processedPolys s.processedPolysColor
      <;> rfl
  · intro points poly pcolor hp
    rw [emittedSegment_eq, segmentSpec_length, if_neg hp]
    have := segmentCount_eq s.params.output.blankCount s.params.output.endCount poly.size
    unfold segmentCount at this
    rw [this]
  · intro hc
    refine ⟨finalPointsSpec s.params s.params.output.blankCount.toNat
      s.params.output.endCount.toNat s.processedPolys s.processedPolysColor, ?_⟩
    unfold Frame.updateFinalPoints
    rw [assemblePoints_eq _ _ _ hc]
    rfl

/-- C19 (witness): the frame with `blankCount = -1`, `endCount = 0` and one single-vertex
path. -/
theorem negative_dwell_as_zero_witness :
    negBlankFrame.updateFinalPoints.map (fun s' => s'.points)
        = (negBlankFrame.withBlankCount 0).updateFinalPoints.map (fun s' => s'.points)
      ∧ ∃ points, negBlankFrame.updateFinalPoints.map (fun s' => s'.points) = some points :=
  have h := negative_dwell_as_zero negBlankFrame
  ⟨h.1 (by decide), h.2.2.2 (by decide)⟩

/-- C20: every sequence of interface calls (`addPoly`, `getLastPoly`, `clear`, `update`,
`updateFinalPoints`, parameter writes) on a newly constructed frame runs without a read past
the end of a vector and reaches a state with as many colours as original paths and at most
that many processed paths; there `processedPolysColor[i]` exists for every index `i` of
`processedPolys`, so `updateFinalPoints` returns, and `update` returns with `origPolys[i]`
existing for every index `i` of the processed paths its stats loop runs over. -/
theorem reachable_lookups_in_bounds (P : PolyPrims) (ops : List Op) :
    ∃ s, runOps P ops Frame.new = some s
      ∧ s.processedPolysColor.length = s.origPolys.length
      ∧ s.processedPolys.length ≤ s.processedPolysColor.length
      ∧ (∀ i, i < s.processedPolys.length → ∃ c, s.processedPolysColor[i]? = some c)
      ∧ (∃ s', s.updateFinalPoints = some s')
      ∧ ∃ s', s.update P = some s'
          ∧ ∀ i, i < s'.processedPolys.length → ∃ o, s.origPolys[i]? = some o := by
  obtain ⟨s, hs, h1, h2⟩ := aligned_runOps P ops Frame.new aligned_new
  have h3 : s.processedPolys.length ≤ s.processedPolysColor.length := by omega
  refine ⟨s, hs, h1, h3, ?_, ?_, ?_⟩
  · intro i hi
    exact ⟨_, List.getElem?_eq_getElem (by omega)⟩
  · obtain ⟨s', hs', _⟩ := aligned_apply P s Op.updateFinalPoints ⟨h1, h2⟩
    exact ⟨s', hs'⟩
  · refine ⟨s.afterPass P, update_eq P s (by omega), ?_⟩
    intro i hi
    have hlen : (s.afterPass P).processedPolys.length = s.origPolys.length :=
      processedSpec_length P s.params.path s.origPolys
    exact ⟨_, List.getElem?_eq_getElem (by omega)⟩

/-! ## Lemmas on float32 rounding -/

theorem floor_le_roundHalfEven (x : ℚ) : ⌊x⌋ ≤ roundHalfEven x := by
  unfold roundHalfEven
  split_ifs <;> omega

theorem roundHalfEven_le_ceil (x : ℚ) : roundHalfEven x ≤ ⌈x⌉ := by
  have hfc : ⌊x⌋ ≤ ⌈x⌉ := Int.floor_le_ceil x
  have key : ¬ (x - (⌊x⌋ : ℚ) < 1/2) → ⌊x⌋ + 1 ≤ ⌈x⌉ := by
    intro h
    have hlt : (⌊x⌋ : ℚ) < x := by
      have := not_lt.mp h
      linarith
    have : ⌊x⌋ < ⌈x⌉ := by
      have h2 : x ≤ (⌈x⌉ : ℚ) := Int.le_ceil x
      have : (⌊x⌋ : ℚ) < (⌈x⌉ : ℚ) := lt_of_lt_of_le hlt h2
      exact_mod_cast this
    omega
  unfold roundHalfEven
  split_ifs with h1 h2 h3
  · exact hfc
  · exact key h1
  · exact hfc
  · exact key h1

theorem le_roundHalfEven (x : ℚ) (n : Int) (h : (n : ℚ) ≤ x) : n ≤ roundHalfEven x :=
  le_trans (Int.le_floor.mpr h) (floor_le_roundHalfEven x)

theorem roundHalfEven_le (x : ℚ) (n : Int) (h : x ≤ (n : ℚ)) : roundHalfEven x ≤ n :=
  le_trans (roundHalfEven_le_ceil x) (Int.ceil_le.mpr h)

theorem two_zpow_pos (e : Int) : (0 : ℚ) < (2 : ℚ) ^ e := zpow_pos (by norm_num) e

theorem gridRound_ge (v g : ℚ) (k : Int) (hg : g = (k : ℚ) * (2 : ℚ) ^ quantumExp v)
    (h : g ≤ v) : g ≤ gridRound v := by
  have hpos := two_zpow_pos (quantumExp v)
  have hk : (k : ℚ) ≤ v / (2 : ℚ) ^ quantumExp v := by
    rw [le_div_iff₀ hpos, ← hg]; exact h
  have := le_roundHalfEven _ k hk
  unfold gridRound
  rw [hg]
  exact mul_le_mul_of_nonneg_right (by exact_mod_cast this) hpos.le

theorem gridRound_le (v g : ℚ) (k : Int) (hg : g = (k : ℚ) * (2 : ℚ) ^ quantumExp v)
    (h : v ≤ g) : gridRound v ≤ g := by
  have hpos := two_zpow_pos (quantumExp v)
  have hk : v / (2 : ℚ) ^ quantumExp v ≤ (k : ℚ) := by
    rw [div_le_iff₀ hpos, ← hg]; exact h
  have := roundHalfEven_le _ k hk
  unfold gridRound
  rw [hg]
  exact mul_le_mul_of_nonneg_right (by exact_mod_cast this) hpos.le

theorem gridRound_eq (v : ℚ) (k : Int) (hg : v = (k : ℚ) * (2 : ℚ) ^ quantumExp v) :
    gridRound v = v :=
  le_antisymm (gridRound_le v v k hg le_rfl) (gridRound_ge v v k hg le_rfl)


theorem log_abs_eq (v : ℚ) (e : Int) (h1 : (2 : ℚ) ^ e ≤ |v|) (h2 : |v| < (2 : ℚ) ^ (e + 1)) :
    Int.log 2 |v| = e := by
  have hpos : 0 < |v| := lt_of_lt_of_le (two_zpow_pos e) h1
  have hle : e ≤ Int.log 2 |v| :=
    (Int.zpow_le_iff_le_log (by norm_num) hpos).mp (by exact_mod_cast h1)
  have hlt : Int.log 2 |v| < e + 1 :=
    (Int.lt_zpow_iff_log_lt (by norm_num) hpos).mp (by exact_mod_cast h2)
  omega

theorem log_abs_lt (v : ℚ) (e : Int) (he : 0 < e) (h : |v| < (2 : ℚ) ^ e) :
    Int.log 2 |v| < e := by
  rcases eq_or_lt_of_le (abs_nonneg v) with h0 | hpos
  · rw [← h0, Int.log_zero_right]; exact he
  · exact (Int.lt_zpow_iff_log_lt (by norm_num) hpos).mp (by exact_mod_cast h)

theorem quantumExp_nonpos (v : ℚ) (h : |v| < (2 : ℚ) ^ (24 : Int)) : quantumExp v ≤ 0 := by
  have := log_abs_lt v 24 (by norm_num) h
  unfold quantumExp
  omega

theorem quantumExp_ge (v : ℚ) : -149 ≤ quantumExp v := le_max_right _ _

theorem intCast_on_grid (q : Int) (hq : q ≤ 0) (n : Int) :
    (n : ℚ) = ((n * 2 ^ (-q).toNat : Int) : ℚ) * (2 : ℚ) ^ q := by
  have h1 : ((2 : ℚ) ^ (-q).toNat) * (2 : ℚ) ^ q = 1 := by
    rw [← zpow_natCast, ← zpow_add₀ (by norm_num : (2 : ℚ) ≠ 0)]
    have : ((-q).toNat : Int) + q = 0 := by omega
    rw [this, zpow_zero]
  push_cast
  rw [mul_assoc, h1, mul_one]

/-- Rounding a value of magnitude below `2^24` that lies between two integers gives a finite
float32 between the same two integers. -/
theorem round32_between_ints (v : ℚ) (a b : Int) (hv : |v| < (2 : ℚ) ^ (24 : Int))
    (ha : (a : ℚ) ≤ v) (hb : v ≤ (b : ℚ)) :
    ∃ r, round32 v = some r ∧ (a : ℚ) ≤ r ∧ r ≤ (b : ℚ) := by
  have hq := quantumExp_nonpos v hv
  have hlo : ∀ n : Int, (n : ℚ) ≤ v → (n : ℚ) ≤ gridRound v := fun n hn =>
    gridRound_ge v n _ (intCast_on_grid _ hq n) hn
  have hhi : ∀ n : Int, v ≤ (n : ℚ) → gridRound v ≤ (n : ℚ) := fun n hn =>
    gridRound_le v n _ (intCast_on_grid _ hq n) hn
  have habs := abs_lt.mp hv
  have h1 := hlo (-(2 : Int) ^ 24) (by push_cast; norm_num at habs ⊢; linarith [habs.1])
  have h2 := hhi ((2 : Int) ^ 24) (by push_cast; norm_num at habs ⊢; linarith [habs.2])
  have hfin : |gridRound v| < (2 : ℚ) ^ (128 : Nat) := by
    rw [abs_lt]
    push_cast at h1 h2
    constructor
    · have : (-(2 : ℚ) ^ (128 : Nat)) < -(2 : ℚ) ^ 24 := by norm_num
      linarith
    · have : (2 : ℚ) ^ 24 < (2 : ℚ) ^ (128 : Nat) := by norm_num
      linarith
  refine ⟨gridRound v, ?_, hlo a ha, hhi b hb⟩
  unfold round32
  rw [if_pos hfin]

theorem round32_eval (v : ℚ) (e q n : Int) (h1 : (2 : ℚ) ^ e ≤ |v|)
    (h2 : |v| < (2 : ℚ) ^ (e + 1)) (hq : max (e - 23) (-149) = q)
    (hn : roundHalfEven (v / (2 : ℚ) ^ q) = n)
    (hr : |(n : ℚ) * (2 : ℚ) ^ q| < (2 : ℚ) ^ (128 : Nat)) :
    round32 v = some ((n : ℚ) * (2 : ℚ) ^ q) := by
  have hqe : quantumExp v = q := by
    unfold quantumExp
    rw [log_abs_eq v e h1 h2, hq]
  unfold round32 gridRound
  rw [hqe, hn, if_pos hr]

theorem roundHalfEven_of_floor (x : ℚ) (f : Int) (hf : ⌊x⌋ = f) :
    roundHalfEven x
      = if x - (f : ℚ) < 1/2 then f
        else if 1/2 < x - (f : ℚ) then f + 1
        else if f % 2 = 0 then f else f + 1 := by
  unfold roundHalfEven
  rw [hf]

theorem zpow_split (a b : Int) (h : b ≤ a) :
    (2 : ℚ) ^ a = ((2 ^ (a - b).toNat : Int) : ℚ) * (2 : ℚ) ^ b := by
  push_cast
  rw [← zpow_natCast, ← zpow_add₀ (by norm_num : (2 : ℚ) ≠ 0)]
  congr 1
  omega

theorem abs_lt_zpow_of_mul (m e : Int) (hm : |m| < 2 ^ 24) :
    |(m : ℚ) * (2 : ℚ) ^ e| < (2 : ℚ) ^ (e + 24) := by
  rw [abs_mul, abs_of_pos (two_zpow_pos e), zpow_add₀ (by norm_num : (2 : ℚ) ≠ 0), mul_comm]
  apply mul_lt_mul_of_pos_left _ (two_zpow_pos e)
  have h : ((|m| : Int) : ℚ) < ((2 ^ 24 : Int) : ℚ) := by exact_mod_cast hm
  push_cast at h
  rw [zpow_ofNat]
  exact h

/-- A finite float32 value is a multiple of the grid spacing at that value. -/
theorem isF32_on_grid (q : ℚ) (h : isF32 q) :
    ∃ k : Int, q = (k : ℚ) * (2 : ℚ) ^ quantumExp q := by
  obtain ⟨m, e, hm, he, hq, _⟩ := h
  rcases eq_or_ne q 0 with h0 | hne
  · exact ⟨0, by rw [h0]; simp⟩
  have hQ : quantumExp q ≤ e := by
    have hpos : 0 < |q| := abs_pos.mpr hne
    have hL : (2 : ℚ) ^ Int.log 2 |q| ≤ |q| := by
      exact_mod_cast Int.zpow_log_le_self (by norm_num) hpos
    have hlt := abs_lt_zpow_of_mul m e hm
    rw [← hq] at hlt
    have hlog : Int.log 2 |q| < e + 24 := by
      by_contra hc
      have : (2 : ℚ) ^ (e + 24) ≤ (2 : ℚ) ^ Int.log 2 |q| :=
        zpow_le_zpow_right₀ (by norm_num) (not_lt.mp hc)
      linarith
    unfold quantumExp
    omega
  generalize quantumExp q = Q at hQ ⊢
  refine ⟨m * 2 ^ (e - Q).toNat, ?_⟩
  rw [hq, zpow_split e Q hQ]
  push_cast
  ring

/-- Rounding leaves a finite float32 value as it is. -/
theorem round32_of_isF32 (q : ℚ) (h : isF32 q) : round32 q = some q := by
  obtain ⟨k, hk⟩ := isF32_on_grid q h
  obtain ⟨_, _, _, _, _, hfin⟩ := h
  unfold round32
  rw [gridRound_eq q k hk, if_pos hfin]

theorem abs_lt_zpow_quantum (v : ℚ) : |v| < (2 : ℚ) ^ (quantumExp v + 24) := by
  have h1 : |v| < (2 : ℚ) ^ (Int.log 2 |v| + 1) := by
    exact_mod_cast Int.lt_zpow_succ_log_self (by norm_num : 1 < 2) |v|
  have h2 : (2 : ℚ) ^ (Int.log 2 |v| + 1) ≤ (2 : ℚ) ^ (quantumExp v + 24) := by
    apply zpow_le_zpow_right₀ (by norm_num)
    unfold quantumExp
    omega
  exact lt_of_lt_of_le h1 h2

theorem abs_roundHalfEven_le (v : ℚ) :
    |roundHalfEven (v / (2 : ℚ) ^ quantumExp v)| ≤ 2 ^ 24 := by
  have hpos := two_zpow_pos (quantumExp v)
  have h := abs_lt_zpow_quantum v
  rw [zpow_add₀ (by norm_num : (2 : ℚ) ≠ 0), zpow_ofNat] at h
  have habs : |v / (2 : ℚ) ^ quantumExp v| < (2 : ℚ) ^ 24 := by
    rw [abs_div, abs_of_pos hpos, div_lt_iff₀ hpos]
    linarith
  obtain ⟨h1, h2⟩ := abs_lt.mp habs
  rw [abs_le]
  constructor
  · apply le_roundHalfEven
    push_cast
    linarith
  · apply roundHalfEven_le
    push_cast
    linarith

/-- Every result of `round32` is a finite float32 value. -/
theorem isF32_of_round32 (v r : ℚ) (h : round32 v = some r) : isF32 r := by
  unfold round32 at h
  split_ifs at h with hfin
  have hr : gridRound v = r := Option.some.inj h
  rw [hr] at hfin
  have hn := abs_roundHalfEven_le v
  have hQ := quantumExp_ge v
  unfold gridRound at hr
  generalize roundHalfEven (v / (2 : ℚ) ^ quantumExp v) = n at hn hr
  generalize quantumExp v = Q at hQ hr
  rcases lt_or_eq_of_le hn with hlt | heq
  · exact ⟨n, Q, hlt, hQ, hr.symm, hfin⟩
  · have h2 : (2 : ℚ) ^ (Q + 1) = 2 * (2 : ℚ) ^ Q := by
      rw [zpow_add₀ (by norm_num : (2 : ℚ) ≠ 0), zpow_one, mul_comm]
    rcases abs_eq (by norm_num : (0 : Int) ≤ 2 ^ 24) |>.mp heq with hp | hm
    · refine ⟨2 ^ 23, Q + 1, by norm_num, by omega, ?_, hfin⟩
      rw [← hr, hp, h2]
      push_cast
      ring
    · refine ⟨-2 ^ 23, Q + 1, by norm_num, by omega, ?_, hfin⟩
      rw [← hr, hm, h2]
      push_cast
      ring

theorem isF32_intCast (n : Int) (h : |n| < 2 ^ 24) : isF32 (n : ℚ) := by
  refine ⟨n, 0, h, by norm_num, by simp, ?_⟩
  have h1 : ((|n| : Int) : ℚ) < ((2 ^ 24 : Int) : ℚ) := by exact_mod_cast h
  push_cast at h1
  have h2 : (2 : ℚ) ^ 24 < (2 : ℚ) ^ (128 : Nat) := by norm_num
  linarith

/-- Adding an integer to a float32 value whose grid spacing is at most 1 gives a float32
value when the magnitude does not grow. -/
theorem isF32_add_int (m e n : Int) (hm : |m| < 2 ^ 24) (he : -149 ≤ e) (he0 : e ≤ 0)
    (hfin : |(m : ℚ) * (2 : ℚ) ^ e| < (2 : ℚ) ^ (128 : Nat))
    (hle : |(m : ℚ) * (2 : ℚ) ^ e + (n : ℚ)| ≤ |(m : ℚ) * (2 : ℚ) ^ e|) :
    isF32 ((m : ℚ) * (2 : ℚ) ^ e + (n : ℚ)) := by
  have hpos := two_zpow_pos e
  have hn := intCast_on_grid e he0 n
  have heq : (m : ℚ) * (2 : ℚ) ^ e + (n : ℚ)
      = ((m + n * 2 ^ (-e).toNat : Int) : ℚ) * (2 : ℚ) ^ e := by
    rw [hn]
    push_cast
    ring
  refine ⟨m + n * 2 ^ (-e).toNat, e, ?_, he, heq, lt_of_le_of_lt hle hfin⟩
  rw [heq, abs_mul, abs_mul, abs_of_pos hpos] at hle
  have h1 : |((m + n * 2 ^ (-e).toNat : Int) : ℚ)| ≤ |(m : ℚ)| :=
    le_of_mul_le_mul_right hle hpos
  have h2 : ((|m + n * 2 ^ (-e).toNat| : Int) : ℚ) ≤ ((|m| : Int) : ℚ) := by
    push_cast at h1 ⊢
    exact h1
  have h3 : |m + n * 2 ^ (-e).toNat| ≤ |m| := by exact_mod_cast h2
  omega

/-- A finite float32 value is an integer or lies on a grid of spacing at most 1. -/
theorem isF32_cases (q : ℚ) (h : isF32 q) :
    (∃ N : Int, q = (N : ℚ))
      ∨ ∃ m e : Int, |m| < 2 ^ 24 ∧ -149 ≤ e ∧ e ≤ 0 ∧ q = (m : ℚ) * (2 : ℚ) ^ e := by
  obtain ⟨m, e, hm, he, hq, _⟩ := h
  by_cases he0 : e ≤ 0
  · exact Or.inr ⟨m, e, hm, he, he0, hq⟩
  · left
    refine ⟨m * 2 ^ e.toNat, ?_⟩
    rw [hq]
    push_cast
    rw [← zpow_natCast]
    congr 2
    omega


/-! ## Theorems on the float32 point transformer -/

theorem isF32_of_eq (q : ℚ) (m e : Int) (hm : |m| < 2 ^ 24) (he : -149 ≤ e) (he' : e ≤ 104)
    (hq : q = (m : ℚ) * (2 : ℚ) ^ e) : isF32 q := by
  refine ⟨m, e, hm, he, hq, ?_⟩
  rw [hq]
  have h1 := abs_lt_zpow_of_mul m e hm
  have h2 : (2 : ℚ) ^ (e + 24) ≤ (2 : ℚ) ^ (128 : Int) :=
    zpow_le_zpow_right₀ (by norm_num) (by omega)
  have h3 : (2 : ℚ) ^ (128 : Int) = (2 : ℚ) ^ (128 : Nat) := by norm_num
  rw [h3] at h2
  exact lt_of_lt_of_le h1 h2

/-- A value in the closed unit interval rounds to a float32 in the closed unit interval. -/
theorem round32_unit (v : ℚ) (h0 : 0 ≤ v) (h1 : v ≤ 1) :
    ∃ r, round32 v = some r ∧ 0 ≤ r ∧ r ≤ 1 := by
  have hv : |v| < (2 : ℚ) ^ (24 : Int) := by
    rw [abs_of_nonneg h0]
    have : (1 : ℚ) < (2 : ℚ) ^ (24 : Int) := by norm_num
    linarith
  obtain ⟨r, hr, ha, hb⟩ := round32_between_ints v 0 1 hv (by simpa using h0) (by simpa using h1)
  exact ⟨r, hr, by simpa using ha, by simpa using hb⟩

/-- The wrap of a negative coordinate not below `-2^24`, in float32, is a finite value in the
closed unit interval. -/
theorem capOrWrapF32_neg_range (c : ℚ) (hlo : -(2 : ℚ) ^ 24 ≤ c) (hneg : c < 0) :
    ∃ r, capOrWrapF32 false c = some r ∧ 0 ≤ r ∧ r ≤ 1 := by
  have hc1 := Int.ceil_lt_add_one c
  have hc2 := Int.le_ceil c
  have hv : |1 + c| < (2 : ℚ) ^ (24 : Int) := by
    rw [abs_lt]
    constructor
    · have : (2 : ℚ) ^ (24 : Int) = (2 : ℚ) ^ 24 := by norm_num
      rw [this]
      linarith
    · have : (1 : ℚ) < (2 : ℚ) ^ (24 : Int) := by norm_num
      linarith
  obtain ⟨a, ha, ha1, ha2⟩ := round32_between_ints (1 + c) ⌈c⌉ (⌈c⌉ + 1) hv
    (by linarith) (by push_cast; linarith)
  push_cast at ha2
  obtain ⟨r, hr, hr0, hr1⟩ := round32_unit (a - (⌈c⌉ : ℚ)) (by linarith) (by linarith)
  refine ⟨r, ?_, hr0, hr1⟩
  unfold capOrWrapF32
  rw [if_pos hneg]
  simp only [Bool.false_eq_true, if_false, ha, Option.bind_eq_bind, Option.some_bind]
  exact hr

/-- The wrap of a coordinate above 1, in float32, is a finite value in the closed unit
interval. -/
theorem capOrWrapF32_pos_range (c : ℚ) (hpos : 1 < c) :
    ∃ r, capOrWrapF32 false c = some r ∧ 0 ≤ r ∧ r ≤ 1 := by
  have h1 := Int.floor_le c
  have h2 := Int.lt_floor_add_one c
  obtain ⟨r, hr, hr0, hr1⟩ := round32_unit (c - (⌊c⌋ : ℚ)) (by linarith) (by linarith)
  refine ⟨r, ?_, hr0, hr1⟩
  unfold capOrWrapF32
  rw [if_neg (by linarith), if_pos hpos]
  simpa using hr

theorem round32_val (v w : ℚ) (m e : Int) (hm : |m| < 2 ^ 24) (he : -149 ≤ e) (he' : e ≤ 104)
    (hw : w = (m : ℚ) * (2 : ℚ) ^ e) (hv : v = w) : round32 v = some w := by
  rw [hv]
  exact round32_of_isF32 w (isF32_of_eq w m e hm he he' hw)

theorem round32_zero : round32 0 = some 0 :=
  round32_val 0 0 0 0 (by norm_num) (by norm_num) (by norm_num) (by norm_num) rfl

theorem lengthSquaredF32_one : lengthSquaredF32 ⟨1, 1⟩ = some 2 := by
  have h1 : round32 ((1 : ℚ) * 1) = some 1 :=
    round32_val _ 1 1 0 (by norm_num) (by norm_num) (by norm_num) (by norm_num) (by norm_num)
  have h2 : round32 ((1 : ℚ) + 1) = some 2 :=
    round32_val _ 2 2 0 (by norm_num) (by norm_num) (by norm_num) (by norm_num) (by norm_num)
  unfold lengthSquaredF32
  simp only [Option.bind_eq_bind, Option.some_bind, h1, h2]

theorem lengthSquaredF32_zero : lengthSquaredF32 ⟨0, 0⟩ = some 0 := by
  have h1 : round32 ((0 : ℚ) * 0) = some 0 := by rw [mul_zero]; exact round32_zero
  have h2 : round32 ((0 : ℚ) + 0) = some 0 := by rw [add_zero]; exact round32_zero
  unfold lengthSquaredF32
  simp only [Option.bind_eq_bind, Option.some_bind, h1, h2]

/-- The scale block in float32 for scale `(1,1)`: each axis is rounded once after the centre
is subtracted and once after it is added back. -/
theorem scalePointF32_unit (t : TransformParams) (p : ofPoint) (ax bx ay by' : ℚ)
    (hs : t.scale = ⟨1, 1⟩)
    (hax : round32 (p.x - 1/2) = some ax) (hbx : round32 (ax + 1/2) = some bx)
    (hay : round32 (p.y - 1/2) = some ay) (hby : round32 (ay + 1/2) = some by') :
    scalePointF32 t p = some ⟨bx, by'⟩ := by
  have h1 : round32 (ax * 1) = some ax := by
    rw [mul_one]; exact round32_of_isF32 _ (isF32_of_round32 _ _ hax)
  have h2 : round32 (ay * 1) = some ay := by
    rw [mul_one]; exact round32_of_isF32 _ (isF32_of_round32 _ _ hay)
  unfold scalePointF32
  rw [hs, lengthSquaredF32_one]
  simp only [Option.bind_eq_bind, Option.some_bind]
  rw [if_pos (by norm_num)]
  simp only [Option.bind_eq_bind, Option.some_bind, Option.pure_def, hax, hay, h1, h2, hbx, hby]

/-- The scale block in float32 for scale `(0,0)`: the guard fails and the point is left as it
is. -/
theorem scalePointF32_zero (t : TransformParams) (p : ofPoint) (hs : t.scale = ⟨0, 0⟩) :
    scalePointF32 t p = some p := by
  unfold scalePointF32
  rw [hs, lengthSquaredF32_zero]
  simp only [Option.bind_eq_bind, Option.some_bind]
  rw [if_neg (lt_irrefl _)]
  rfl

theorem flipPointF32_off (t : TransformParams) (p : ofPoint) (hx : t.doFlipX = false)
    (hy : t.doFlipY = false) : flipPointF32 t p = some p := by
  unfold flipPointF32
  rw [hx, hy]
  rfl

theorem offsetPointF32_zero (t : TransformParams) (p : ofPoint) (ho : t.offset = ⟨0, 0⟩)
    (hx : isF32 p.x) (hy : isF32 p.y) : offsetPointF32 t p = some p := by
  have h1 : round32 (p.x + 0) = some p.x := by rw [add_zero]; exact round32_of_isF32 _ hx
  have h2 : round32 (p.y + 0) = some p.y := by rw [add_zero]; exact round32_of_isF32 _ hy
  unfold offsetPointF32
  rw [ho]
  simp only [Option.bind_eq_bind, Option.some_bind, Option.pure_def, h1, h2]

/-- The coordinates reaching the cap-or-wrap block in float32 under no flip, scale `(1,1)`
and offset `(0,0)`. -/
theorem beforeCapOrWrapF32_unit (params : Params) (p : ofPoint) (ax bx ay by' : ℚ)
    (hfx : params.output.transform.doFlipX = false)
    (hfy : params.output.transform.doFlipY = false)
    (hs : params.output.transform.scale = ⟨1, 1⟩)
    (ho : params.output.transform.offset = ⟨0, 0⟩)
    (hax : round32 (p.x - 1/2) = some ax) (hbx : round32 (ax + 1/2) = some bx)
    (hay : round32 (p.y - 1/2) = some ay) (hby : round32 (ay + 1/2) = some by') :
    beforeCapOrWrapF32 params p = some ⟨bx, by'⟩ := by
  unfold beforeCapOrWrapF32
  rw [flipPointF32_off _ _ hfx hfy]
  simp only [Option.bind_eq_bind, Option.some_bind]
  rw [scalePointF32_unit _ p ax bx ay by' hs hax hbx hay hby]
  simp only [Option.some_bind]
  exact offsetPointF32_zero _ _ ho (isF32_of_round32 _ _ hbx) (isF32_of_round32 _ _ hby)

/-- The coordinates reaching the cap-or-wrap block in float32 under no flip, scale `(0,0)`
and offset `(0,0)` are the input coordinates. -/
theorem beforeCapOrWrapF32_unscaled (params : Params) (p : ofPoint)
    (hfx : params.output.transform.doFlipX = false)
    (hfy : params.output.transform.doFlipY = false)
    (hs : params.output.transform.scale = ⟨0, 0⟩)
    (ho : params.output.transform.offset = ⟨0, 0⟩)
    (hx : isF32 p.x) (hy : isF32 p.y) :
    beforeCapOrWrapF32 params p = some p := by
  unfold beforeCapOrWrapF32
  rw [flipPointF32_off _ _ hfx hfy]
  simp only [Option.bind_eq_bind, Option.some_bind]
  rw [scalePointF32_zero _ p hs]
  simp only [Option.some_bind]
  exact offsetPointF32_zero _ _ ho hx hy

/-- The result of `transformPoint` in float32 from the coordinates reaching the cap-or-wrap
block and the cap-or-wrap of each. -/
theorem transformPointF32_eval (params : Params) (p q : ofPoint) (x y : ℚ)
    (hq : beforeCapOrWrapF32 params p = some q)
    (hx : capOrWrapF32 params.output.doCapX q.x = some x)
    (hy : capOrWrapF32 params.output.doCapY q.y = some y) :
    transformPointF32 params p = some ⟨x, y⟩ := by
  unfold transformPointF32
  rw [hq]
  simp only [Option.bind_eq_bind, Option.some_bind, Option.pure_def, hx, hy]

theorem capOrWrapF32_inside (doCap : Bool) (c : ℚ) (h0 : 0 ≤ c) (h1 : c ≤ 1) :
    capOrWrapF32 doCap c = some c := by
  unfold capOrWrapF32
  rw [if_neg (not_lt.mpr h0), if_neg (not_lt.mpr h1)]

theorem capOrWrapF32_neg_eval (c a r : ℚ) (hneg : c < 0) (ha : round32 (1 + c) = some a)
    (hr : round32 (a - (⌈c⌉ : ℚ)) = some r) : capOrWrapF32 false c = some r := by
  unfold capOrWrapF32
  rw [if_pos hneg]
  simp only [Bool.false_eq_true, if_false, ha, Option.bind_eq_bind, Option.some_bind]
  exact hr

theorem round32_neg_half : round32 ((0 : ℚ) - 1/2) = some (-1/2) :=
  round32_val _ (-1/2) (-1) (-1) (by norm_num) (by norm_num) (by norm_num) (by norm_num)
    (by norm_num)

theorem round32_neg_half_add : round32 ((-1/2 : ℚ) + 1/2) = some 0 :=
  round32_val _ 0 0 0 (by norm_num) (by norm_num) (by norm_num) (by norm_num) (by norm_num)

/-- C18 (counterexample): in float32, with no capping and the default transform, the input
`x = -1` reaches the wrap step as `c = -1`, and `transformPoint` returns
`1 + c - ceil(c) = 1`, which is not strictly less than 1. -/
theorem negative_wrap_reaches_one :
    defaultParams.output.doCapX = false
      ∧ beforeCapOrWrapF32 defaultParams ⟨-1, 0⟩ = some ⟨-1, 0⟩
      ∧ transformPointF32 defaultParams ⟨-1, 0⟩ = some ⟨1, 0⟩
      ∧ ¬ ((1 : ℚ) < 1) := by
  have h1 : round32 ((-1 : ℚ) - 1/2) = some (-3/2) :=
    round32_val _ (-3/2) (-3) (-1) (by norm_num) (by norm_num) (by norm_num) (by norm_num)
      (by norm_num)
  have h2 : round32 ((-3/2 : ℚ) + 1/2) = some (-1) :=
    round32_val _ (-1) (-1) 0 (by norm_num) (by norm_num) (by norm_num) (by norm_num)
      (by norm_num)
  have hb : beforeCapOrWrapF32 defaultParams ⟨-1, 0⟩ = some ⟨-1, 0⟩ :=
    beforeCapOrWrapF32_unit defaultParams ⟨-1, 0⟩ (-3/2) (-1) (-1/2) 0 rfl rfl rfl rfl
      h1 h2 round32_neg_half round32_neg_half_add
  have hc : ⌈(-1 : ℚ)⌉ = -1 := by rw [Int.ceil_eq_iff]; norm_num
  have hw : capOrWrapF32 false (-1) = some 1 :=
    capOrWrapF32_neg_eval (-1) 0 1 (by norm_num)
      (round32_val _ 0 0 0 (by norm_num) (by norm_num) (by norm_num) (by norm_num)
        (by norm_num))
      (round32_val _ 1 1 0 (by norm_num) (by norm_num) (by norm_num) (by norm_num)
        (by rw [hc]; norm_num))
  exact ⟨rfl, hb, transformPointF32_eval defaultParams ⟨-1, 0⟩ ⟨-1, 0⟩ 1 0 hb hw
    (capOrWrapF32_inside false 0 le_rfl (by norm_num)), lt_irrefl _⟩

theorem round32_eval_val (v w : ℚ) (e q n : Int) (h1 : (2 : ℚ) ^ e ≤ |v|)
    (h2 : |v| < (2 : ℚ) ^ (e + 1)) (hq : max (e - 23) (-149) = q)
    (hn : roundHalfEven (v / (2 : ℚ) ^ q) = n) (hw : w = (n : ℚ) * (2 : ℚ) ^ q)
    (hr : |w| < (2 : ℚ) ^ (128 : Nat)) : round32 v = some w := by
  rw [hw] at hr ⊢
  exact round32_eval v e q n h1 h2 hq hn hr

theorem beforeCapOrWrapF32_neg_one :
    beforeCapOrWrapF32 defaultParams ⟨-1, 0⟩ = some ⟨-1, 0⟩ :=
  beforeCapOrWrapF32_unit defaultParams ⟨-1, 0⟩ (-3/2) (-1) (-1/2) 0 rfl rfl rfl rfl
    (round32_val _ (-3/2) (-3) (-1) (by norm_num) (by norm_num) (by norm_num) (by norm_num)
      (by norm_num))
    (round32_val _ (-1) (-1) 0 (by norm_num) (by norm_num) (by norm_num) (by norm_num)
      (by norm_num))
    round32_neg_half round32_neg_half_add

theorem round32_eval_neg (v w : ℚ) (e q n : Int) (h1 : (2 : ℚ) ^ e ≤ -v)
    (h2 : -v < (2 : ℚ) ^ (e + 1)) (hq : max (e - 23) (-149) = q)
    (hn : roundHalfEven (v / (2 : ℚ) ^ q) = n) (hw : w = (n : ℚ) * (2 : ℚ) ^ q)
    (hr : |w| < (2 : ℚ) ^ (128 : Nat)) : round32 v = some w := by
  have hv : |v| = -v := abs_of_neg (by linarith [two_zpow_pos e])
  exact round32_eval_val v w e q n (by rw [hv]; exact h1) (by rw [hv]; exact h2) hq hn hw hr

theorem round32_eval_pos (v w : ℚ) (e q n : Int) (h1 : (2 : ℚ) ^ e ≤ v)
    (h2 : v < (2 : ℚ) ^ (e + 1)) (hq : max (e - 23) (-149) = q)
    (hn : roundHalfEven (v / (2 : ℚ) ^ q) = n) (hw : w = (n : ℚ) * (2 : ℚ) ^ q)
    (hr : |w| < (2 : ℚ) ^ (128 : Nat)) : round32 v = some w := by
  have hv : |v| = v := abs_of_pos (by linarith [two_zpow_pos e])
  exact round32_eval_val v w e q n (by rw [hv]; exact h1) (by rw [hv]; exact h2) hq hn hw hr

theorem isF32_zero : isF32 0 :=
  isF32_of_eq 0 0 0 (by norm_num) (by norm_num) (by norm_num) (by norm_num)

theorem isF32_one : isF32 1 :=
  isF32_of_eq 1 1 0 (by norm_num) (by norm_num) (by norm_num) (by norm_num)

/-- The fractional part of a float32 value above 1 is a float32 value. -/
theorem isF32_sub_floor (c : ℚ) (hc : isF32 c) (hpos : 1 < c) : isF32 (c - (⌊c⌋ : ℚ)) := by
  have h1 := Int.floor_le c
  have h2 := Int.lt_floor_add_one c
  rcases isF32_cases c hc with ⟨N, hN⟩ | ⟨m, e, hm, he, he0, hq⟩
  · have : c - (⌊c⌋ : ℚ) = 0 := by
      rw [hN, Int.floor_intCast, sub_self]
    rw [this]; exact isF32_zero
  · obtain ⟨_, _, _, _, _, hfin⟩ := hc
    have hle : |c + ((-⌊c⌋ : Int) : ℚ)| ≤ |c| := by
      push_cast
      rw [abs_of_nonneg (by linarith), abs_of_pos (by linarith)]
      linarith
    have := isF32_add_int m e (-⌊c⌋) hm he he0 (by rw [← hq]; exact hfin)
      (by rw [← hq]; exact hle)
    rw [← hq] at this
    push_cast at this
    rw [sub_eq_add_neg]
    exact this

/-- For a float32 value `c` with `-2^24 <= c <= -1`, both `1 + c` and `1 + c - ceil(c)` are
float32 values. -/
theorem isF32_one_add (c : ℚ) (hc : isF32 c) (hlo : -(2 : ℚ) ^ 24 ≤ c) (hhi : c ≤ -1) :
    isF32 (1 + c) ∧ isF32 (1 + c - (⌈c⌉ : ℚ)) := by
  have h1 := Int.ceil_lt_add_one c
  have h2 := Int.le_ceil c
  rcases isF32_cases c hc with ⟨N, hN⟩ | ⟨m, e, hm, he, he0, hq⟩
  · constructor
    · have hNlo : -(2 : Int) ^ 24 ≤ N := by
        have : ((-(2 : Int) ^ 24 : Int) : ℚ) ≤ (N : ℚ) := by
          push_cast; rw [← hN]; exact hlo
        exact_mod_cast this
      have hNhi : N ≤ -1 := by
        have : (N : ℚ) ≤ ((-1 : Int) : ℚ) := by
          push_cast; rw [← hN]; exact hhi
        exact_mod_cast this
      have : (1 : ℚ) + c = ((1 + N : Int) : ℚ) := by rw [hN]; push_cast; ring
      rw [this]
      apply isF32_intCast
      rw [abs_lt]
      constructor <;> omega
    · have : (1 : ℚ) + c - (⌈c⌉ : ℚ) = 1 := by
        rw [hN, Int.ceil_intCast]; ring
      rw [this]; exact isF32_one
  · obtain ⟨_, _, _, _, _, hfin⟩ := hc
    constructor
    · have hle : |c + ((1 : Int) : ℚ)| ≤ |c| := by
        push_cast
        rw [abs_of_nonpos (by linarith), abs_of_neg (by linarith)]
        linarith
      have := isF32_add_int m e 1 hm he he0 (by rw [← hq]; exact hfin)
        (by rw [← hq]; exact hle)
      rw [← hq] at this
      push_cast at this
      rw [add_comm]
      exact this
    · have hle : |c + ((1 - ⌈c⌉ : Int) : ℚ)| ≤ |c| := by
        push_cast
        rw [abs_of_nonneg (by linarith), abs_of_neg (by linarith)]
        linarith
      have := isF32_add_int m e (1 - ⌈c⌉) hm he he0 (by rw [← hq]; exact hfin)
        (by rw [← hq]; exact hle)
      rw [← hq] at this
      push_cast at this
      have heq : (1 : ℚ) + c - (⌈c⌉ : ℚ) = c + (1 - (⌈c⌉ : ℚ)) := by ring
      rw [heq]
      exact this

/-- The wrap of a float32 coordinate above 1 is exactly `c - floor(c)`. -/
theorem capOrWrapF32_pos_exact (c : ℚ) (hc : isF32 c) (hpos : 1 < c) :
    capOrWrapF32 false c = some (c - (⌊c⌋ : ℚ)) := by
  unfold capOrWrapF32
  rw [if_neg (by linarith), if_pos hpos]
  simp only [Bool.false_eq_true, if_false]
  exact round32_of_isF32 _ (isF32_sub_floor c hc hpos)

/-- The wrap of a float32 coordinate `c` with `-2^24 <= c <= -1` is exactly
`1 + c - ceil(c)`. -/
theorem capOrWrapF32_neg_exact (c : ℚ) (hc : isF32 c) (hlo : -(2 : ℚ) ^ 24 ≤ c)
    (hhi : c ≤ -1) : capOrWrapF32 false c = some (1 + c - (⌈c⌉ : ℚ)) := by
  obtain ⟨h1, h2⟩ := isF32_one_add c hc hlo hhi
  exact capOrWrapF32_neg_eval c (1 + c) _ (by linarith) (round32_of_isF32 _ h1)
    (round32_of_isF32 _ h2)

theorem offsetPointF32_isF32 (t : TransformParams) (p q : ofPoint)
    (h : offsetPointF32 t p = some q) : isF32 q.x ∧ isF32 q.y := by
  unfold offsetPointF32 at h
  cases hx : round32 (p.x + t.offset.x) with
  | none => rw [hx] at h; simp at h
  | some x =>
    cases hy : round32 (p.y + t.offset.y) with
    | none => rw [hx, hy] at h; simp at h
    | some y =>
      rw [hx, hy] at h
      simp only [Option.bind_eq_bind, Option.some_bind, Option.pure_def,
        Option.some.injEq] at h
      rw [← h]
      exact ⟨isF32_of_round32 _ _ hx, isF32_of_round32 _ _ hy⟩

/-- The coordinates reaching the cap-or-wrap block in float32 are float32 values. -/
theorem beforeCapOrWrapF32_isF32 (params : Params) (p q : ofPoint)
    (h : beforeCapOrWrapF32 params p = some q) : isF32 q.x ∧ isF32 q.y := by
  unfold beforeCapOrWrapF32 at h
  cases h1 : flipPointF32 params.output.transform p with
  | none => rw [h1] at h; simp at h
  | some a =>
    rw [h1] at h
    simp only [Option.bind_eq_bind, Option.some_bind] at h
    cases h2 : scalePointF32 params.output.transform a with
    | none => rw [h2] at h; simp at h
    | some b =>
      rw [h2] at h
      simp only [Option.some_bind] at h
      exact offsetPointF32_isF32 _ b q h

theorem isF32_neg (q : ℚ) (h : isF32 q) : isF32 (-q) := by
  obtain ⟨m, e, hm, he, hq, hfin⟩ := h
  refine ⟨-m, e, by rwa [abs_neg], he, ?_, by rwa [abs_neg]⟩
  rw [hq]
  push_cast
  ring

/-- Rounding keeps a value within any float32 bound on its magnitude, so it stays finite. -/
theorem round32_bounded (v M : ℚ) (hM : isF32 M) (h : |v| ≤ M) :
    ∃ r, round32 v = some r ∧ |r| ≤ M := by
  have hM0 : 0 ≤ M := le_trans (abs_nonneg v) h
  rcases eq_or_ne v 0 with h0 | hne
  · rw [h0]
    exact ⟨0, round32_zero, by rw [abs_zero]; exact hM0⟩
  have hvpos : 0 < |v| := abs_pos.mpr hne
  have hMpos : 0 < M := lt_of_lt_of_le hvpos h
  obtain ⟨k, hk⟩ := isF32_on_grid M hM
  obtain ⟨_, _, _, _, _, hfin⟩ := hM
  rw [abs_of_pos hMpos] at hfin
  have hq : quantumExp v ≤ quantumExp M := by
    have hlog : Int.log 2 |v| ≤ Int.log 2 |M| :=
      Int.log_mono_right hvpos (by rw [abs_of_pos hMpos]; exact h)
    unfold quantumExp
    omega
  have hMg : M = ((k * 2 ^ (quantumExp M - quantumExp v).toNat : Int) : ℚ)
      * (2 : ℚ) ^ quantumExp v := by
    calc M = (k : ℚ) * (2 : ℚ) ^ quantumExp M := hk
      _ = (k : ℚ) * (((2 ^ (quantumExp M - quantumExp v).toNat : Int) : ℚ)
            * (2 : ℚ) ^ quantumExp v) := by
          rw [← zpow_split (quantumExp M) (quantumExp v) hq]
      _ = ((k * 2 ^ (quantumExp M - quantumExp v).toNat : Int) : ℚ)
            * (2 : ℚ) ^ quantumExp v := by
          push_cast
          ring
  have hNg : -M = ((-(k * 2 ^ (quantumExp M - quantumExp v).toNat) : Int) : ℚ)
      * (2 : ℚ) ^ quantumExp v := by
    rw [Int.cast_neg, neg_mul, ← hMg]
  have hlo : -M ≤ gridRound v := gridRound_ge v (-M) _ hNg (neg_le_of_abs_le h)
  have hhi : gridRound v ≤ M := gridRound_le v M _ hMg (le_of_abs_le h)
  have habs : |gridRound v| ≤ M := abs_le.mpr ⟨hlo, hhi⟩
  refine ⟨gridRound v, ?_, habs⟩
  unfold round32
  rw [if_pos (lt_of_le_of_lt habs hfin)]

theorem round32_nonpos (v r : ℚ) (hv : v ≤ 0) (hr : round32 v = some r) : r ≤ 0 := by
  have hg : r = gridRound v := by
    unfold round32 at hr
    split_ifs at hr
    exact (Option.some.inj hr).symm
  rw [hg]
  exact gridRound_le v 0 0 (by simp) hv

/-- The cap-or-wrap step returns a finite value for every finite float32 coordinate. -/
theorem capOrWrapF32_total (doCap : Bool) (c : ℚ) (hc : isF32 c) :
    ∃ r, capOrWrapF32 doCap c = some r := by
  cases doCap with
  | true =>
    unfold capOrWrapF32
    simp only [if_true]
    split_ifs <;> exact ⟨_, rfl⟩
  | false =>
    rcases lt_or_le c 0 with hneg | hnn
    · by_cases hlo : -(2 : ℚ) ^ 24 ≤ c
      · obtain ⟨r, hr, _⟩ := capOrWrapF32_neg_range c hlo hneg
        exact ⟨r, hr⟩
      · have hc24 : c < -(2 : ℚ) ^ 24 := not_le.mp hlo
        have h24 : (1 : ℚ) < (2 : ℚ) ^ 24 := by norm_num
        have hM : isF32 (-c) := isF32_neg c hc
        obtain ⟨a, ha, hab⟩ := round32_bounded (1 + c) (-c) hM
          (abs_le.mpr ⟨by linarith, by linarith⟩)
        have ha0 : a ≤ 0 := round32_nonpos (1 + c) a (by linarith) ha
        have hac : c ≤ a := by
          have := (abs_le.mp hab).1
          linarith
        have hc1 := Int.ceil_lt_add_one c
        have hc2 := Int.le_ceil c
        obtain ⟨r, hr, _⟩ := round32_bounded (a - (⌈c⌉ : ℚ)) (-c) hM
          (abs_le.mpr ⟨by linarith, by linarith⟩)
        exact ⟨r, capOrWrapF32_neg_eval c a r hneg ha hr⟩
    · rcases lt_or_le 1 c with hgt | hle
      · obtain ⟨r, hr, _⟩ := capOrWrapF32_pos_range c hgt
        exact ⟨r, hr⟩
      · exact ⟨c, capOrWrapF32_inside false c hnn hle⟩

/-- When the coordinates reaching the cap-or-wrap block are finite, `transformPoint` returns
a finite point, whose coordinates are the results of the cap-or-wrap step on each axis. -/
theorem transformPointF32_total (params : Params) (p q : ofPoint)
    (hq : beforeCapOrWrapF32 params p = some q) :
    ∃ r, transformPointF32 params p = some r
      ∧ capOrWrapF32 params.output.doCapX q.x = some r.x
      ∧ capOrWrapF32 params.output.doCapY q.y = some r.y := by
  obtain ⟨hx, hy⟩ := beforeCapOrWrapF32_isF32 params p q hq
  obtain ⟨x, hx'⟩ := capOrWrapF32_total params.output.doCapX q.x hx
  obtain ⟨y, hy'⟩ := capOrWrapF32_total params.output.doCapY q.y hy
  exact ⟨⟨x, y⟩, transformPointF32_eval params p q x y hq hx' hy', hx', hy'⟩

/-- C18 (amended): in float32, for every coordinate `c` with `-2^24 <= c < 0` reaching the
wrap step with capping disabled on that axis, the value `1 + c - ceil(c)` returned by
`transformPoint` is finite and lies in the closed interval `[0,1]`, i.e. it is `>= 0` and
`<= 1` (on the x axis and on the y axis). -/
theorem negative_wrap_closed_range (params : Params) (p q : ofPoint)
    (hq : beforeCapOrWrapF32 params p = some q) :
    (params.output.doCapX = false → -(2 : ℚ) ^ 24 ≤ q.x → q.x < 0 →
      ∃ x, capOrWrapF32 params.output.doCapX q.x = some x ∧ 0 ≤ x ∧ x ≤ 1
        ∧ ∃ r, transformPointF32 params p = some r ∧ r.x = x)
    ∧ (params.output.doCapY = false → -(2 : ℚ) ^ 24 ≤ q.y → q.y < 0 →
      ∃ y, capOrWrapF32 params.output.doCapY q.y = some y ∧ 0 ≤ y ∧ y ≤ 1
        ∧ ∃ r, transformPointF32 params p = some r ∧ r.y = y) := by
  obtain ⟨r, hr, hrx, hry⟩ := transformPointF32_total params p q hq
  constructor
  · intro hcap hlo hneg
    obtain ⟨x, hx, h0, h1⟩ := capOrWrapF32_neg_range q.x hlo hneg
    rw [← hcap] at hx
    exact ⟨x, hx, h0, h1, r, hr, Option.some.inj (hrx.symm.trans hx)⟩
  · intro hcap hlo hneg
    obtain ⟨y, hy, h0, h1⟩ := capOrWrapF32_neg_range q.y hlo hneg
    rw [← hcap] at hy
    exact ⟨y, hy, h0, h1, r, hr, Option.some.inj (hry.symm.trans hy)⟩

/-- C18 (witness): the default configuration at the input `(-1, 0)`, whose x coordinate
reaches the wrap step as `-1`. -/
theorem negative_wrap_closed_range_witness :
    ∃ x, capOrWrapF32 defaultParams.output.doCapX (-1) = some x ∧ 0 ≤ x ∧ x ≤ 1
      ∧ ∃ r, transformPointF32 defaultParams ⟨-1, 0⟩ = some r ∧ r.x = x :=
  (negative_wrap_closed_range defaultParams ⟨-1, 0⟩ ⟨-1, 0⟩ beforeCapOrWrapF32_neg_one).1
    rfl (by norm_num) (by norm_num)

theorem round32_one_add_neg_fifth :
    round32 ((1 : ℚ) + -13421773/67108864) = some (13421773/16777216) :=
  round32_eval_pos _ _ (-1) (-24) 13421773 (by norm_num) (by norm_num) (by norm_num)
    (by
      rw [roundHalfEven_of_floor _ 13421772 (by rw [Int.floor_eq_iff]; norm_num)]
      norm_num)
    (by norm_num) (abs_lt.mpr ⟨by norm_num, by norm_num⟩)

theorem ceil_neg_fifth : ⌈(-13421773/67108864 : ℚ)⌉ = 0 := by
  rw [Int.ceil_eq_iff]; norm_num

/-- C4 (counterexample): in float32, with capping disabled, no flip, scale `(0,0)` and offset
`(0,0)`, the input `x = -0.2f` (the float32 nearest to -0.2, `-13421773/2^26`) reaches the
wrap step as `c = -0.2f`; `1 + c` rounds to `0.8f = 13421773/2^24` and `transformPoint`
returns `0.8f`, which differs from `c` by `67108865/67108864`, not by an integer. -/
theorem wrap_not_integer_shift :
    (withScale defaultParams ⟨0, 0⟩).output.doCapX = false
      ∧ beforeCapOrWrapF32 (withScale defaultParams ⟨0, 0⟩) ⟨-13421773/67108864, 0⟩
          = some ⟨-13421773/67108864, 0⟩
      ∧ transformPointF32 (withScale defaultParams ⟨0, 0⟩) ⟨-13421773/67108864, 0⟩
          = some ⟨13421773/16777216, 0⟩
      ∧ (13421773/16777216 : ℚ) - (-13421773/67108864) = 67108865/67108864
      ∧ ∀ k : Int, (67108865/67108864 : ℚ) ≠ (k : ℚ) := by
  have hb : beforeCapOrWrapF32 (withScale defaultParams ⟨0, 0⟩) ⟨-13421773/67108864, 0⟩
      = some ⟨-13421773/67108864, 0⟩ :=
    beforeCapOrWrapF32_unscaled _ _ rfl rfl rfl rfl
      (isF32_of_eq _ (-13421773) (-26) (by norm_num) (by norm_num) (by norm_num)
        (by norm_num))
      isF32_zero
  have hw : capOrWrapF32 false (-13421773/67108864) = some (13421773/16777216) :=
    capOrWrapF32_neg_eval _ _ _ (by norm_num) round32_one_add_neg_fifth
      (round32_val _ _ 13421773 (-24) (by norm_num) (by norm_num) (by norm_num)
        (by norm_num) (by rw [ceil_neg_fifth]; norm_num))
  refine ⟨rfl, hb, transformPointF32_eval _ _ _ _ _ hb hw
    (capOrWrapF32_inside false 0 le_rfl (by norm_num)), by norm_num, ?_⟩
  intro k hk
  have h1 : (1 : ℚ) < (k : ℚ) := by rw [← hk]; norm_num
  have h2 : (k : ℚ) < 2 := by rw [← hk]; norm_num
  have h3 : (1 : Int) < k := by exact_mod_cast h1
  have h4 : k < 2 := by exact_mod_cast h2
  omega

/-- Rounding to the nearest integer moves a value by at most one half. -/
theorem roundHalfEven_near (x : ℚ) : |(roundHalfEven x : ℚ) - x| ≤ 1/2 := by
  have h1 := Int.floor_le x
  have h2 := Int.lt_floor_add_one x
  unfold roundHalfEven
  rw [abs_le]
  split_ifs <;> push_cast <;> constructor <;> linarith

/-- Rounding to the float32 grid moves a value by at most half the grid spacing. -/
theorem gridRound_near (v : ℚ) : |gridRound v - v| ≤ (2 : ℚ) ^ quantumExp v / 2 := by
  have hpos := two_zpow_pos (quantumExp v)
  have h := roundHalfEven_near (v / (2 : ℚ) ^ quantumExp v)
  have e : gridRound v - v
      = ((roundHalfEven (v / (2 : ℚ) ^ quantumExp v) : ℚ) - v / (2 : ℚ) ^ quantumExp v)
          * (2 : ℚ) ^ quantumExp v := by
    unfold gridRound
    field_simp
  rw [e, abs_mul, abs_of_pos hpos]
  calc |(roundHalfEven (v / (2 : ℚ) ^ quantumExp v) : ℚ) - v / (2 : ℚ) ^ quantumExp v|
          * (2 : ℚ) ^ quantumExp v
        ≤ 1/2 * (2 : ℚ) ^ quantumExp v := mul_le_mul_of_nonneg_right h hpos.le
    _ = (2 : ℚ) ^ quantumExp v / 2 := by ring

/-- A value strictly inside the unit interval rounds to a float32 of the closed unit
interval that is within `2^-25` of it. -/
theorem round32_unit_near (v : ℚ) (h0 : 0 < v) (h1 : v < 1) :
    ∃ r, round32 v = some r ∧ 0 ≤ r ∧ r ≤ 1 ∧ |r - v| ≤ 1 / 2 ^ 25 := by
  have hq : quantumExp v ≤ -24 := by
    have hlt : |v| < ((2 : Nat) : ℚ) ^ (0 : Int) := by
      rw [abs_of_pos h0]; simpa using h1
    have hlog : Int.log 2 |v| < 0 :=
      (Int.lt_zpow_iff_log_lt (by norm_num) (abs_pos.mpr h0.ne')).mp hlt
    unfold quantumExp
    omega
  obtain ⟨r, hr, hr0, hr1⟩ := round32_unit v h0.le h1.le
  refine ⟨r, hr, hr0, hr1, ?_⟩
  have hg : r = gridRound v := by
    unfold round32 at hr
    split_ifs at hr
    exact (Option.some.inj hr).symm
  rw [hg]
  have h2 := gridRound_near v
  have h3 : (2 : ℚ) ^ quantumExp v ≤ (2 : ℚ) ^ (-24 : Int) :=
    zpow_le_zpow_right₀ (by norm_num) hq
  have h4 : (2 : ℚ) ^ (-24 : Int) / 2 = 1 / 2 ^ 25 := by norm_num
  calc |gridRound v - v| ≤ (2 : ℚ) ^ quantumExp v / 2 := h2
    _ ≤ (2 : ℚ) ^ (-24 : Int) / 2 :=
        (div_le_div_iff_of_pos_right (by norm_num : (0 : ℚ) < 2)).mpr h3
    _ = 1 / 2 ^ 25 := h4

/-- The wrap of a coordinate `c` with `-1 < c < 0` is the float32 nearest to `1 + c`. -/
theorem capOrWrapF32_neg_frac (c : ℚ) (hc : -1 < c) (hneg : c < 0) :
    ∃ x, capOrWrapF32 false c = some x ∧ round32 (1 + c) = some x
      ∧ |x - (1 + c)| ≤ 1 / 2 ^ 25 := by
  obtain ⟨r, hr, _, _, hn⟩ := round32_unit_near (1 + c) (by linarith) (by linarith)
  have hce : ⌈c⌉ = 0 := by
    rw [Int.ceil_eq_iff]
    constructor <;> push_cast <;> linarith
  refine ⟨r, ?_, hr, hn⟩
  apply capOrWrapF32_neg_eval c r r hneg hr
  rw [hce, Int.cast_zero, sub_zero]
  exact round32_of_isF32 r (isF32_of_round32 _ _ hr)

/-- C4 (amended): in float32, with capping disabled on an axis, a coordinate `c > 1` reaching
the wrap step is returned as `c - floor(c)` and a coordinate with `-2^24 <= c <= -1` as
`1 + c - ceil(c)`, both exactly, so that the returned value differs from `c` by an integer;
a coordinate with `-1 < c < 0` is returned as the float32 nearest to `1 + c`, which is
within `2^-25` of `1 + c` (all on the x axis and on the y axis); with no flip, scale `(1,1)`,
offset `(0,0)` and `doCapX = false`, `x = 1.3f` (`5452595/2^22`) is mapped to `1.3f - 1` and
`x = -0.2f` (`-13421773/2^26`) is mapped to `0.8f` (`13421773/2^24`). -/
theorem wrap_exact_ranges (params : Params) (p q : ofPoint)
    (hq : beforeCapOrWrapF32 params p = some q) :
    (params.output.doCapX = false →
      (1 < q.x → capOrWrapF32 params.output.doCapX q.x = some (q.x - (⌊q.x⌋ : ℚ)))
      ∧ (-(2 : ℚ) ^ 24 ≤ q.x → q.x ≤ -1 →
          capOrWrapF32 params.output.doCapX q.x = some (1 + q.x - (⌈q.x⌉ : ℚ)))
      ∧ (1 < q.x ∨ (-(2 : ℚ) ^ 24 ≤ q.x ∧ q.x ≤ -1) →
          ∃ (x : ℚ) (k : Int), capOrWrapF32 params.output.doCapX q.x = some x
            ∧ x - q.x = (k : ℚ)
            ∧ ∃ r, transformPointF32 params p = some r ∧ r.x = x)
      ∧ (-1 < q.x → q.x < 0 →
          ∃ x : ℚ, capOrWrapF32 params.output.doCapX q.x = some x
            ∧ round32 (1 + q.x) = some x ∧ |x - (1 + q.x)| ≤ 1 / 2 ^ 25
            ∧ ∃ r, transformPointF32 params p = some r ∧ r.x = x))
    ∧ (params.output.doCapY = false →
      (1 < q.y → capOrWrapF32 params.output.doCapY q.y = some (q.y - (⌊q.y⌋ : ℚ)))
      ∧ (-(2 : ℚ) ^ 24 ≤ q.y → q.y ≤ -1 →
          capOrWrapF32 params.output.doCapY q.y = some (1 + q.y - (⌈q.y⌉ : ℚ)))
      ∧ (1 < q.y ∨ (-(2 : ℚ) ^ 24 ≤ q.y ∧ q.y ≤ -1) →
          ∃ (y : ℚ) (k : Int), capOrWrapF32 params.output.doCapY q.y = some y
            ∧ y - q.y = (k : ℚ)
            ∧ ∃ r, transformPointF32 params p = some r ∧ r.y = y)
      ∧ (-1 < q.y → q.y < 0 →
          ∃ y : ℚ, capOrWrapF32 params.output.doCapY q.y = some y
            ∧ round32 (1 + q.y) = some y ∧ |y - (1 + q.y)| ≤ 1 / 2 ^ 25
            ∧ ∃ r, transformPointF32 params p = some r ∧ r.y = y))
    ∧ (params.output.transform.doFlipX = false → params.output.transform.doFlipY = false →
        params.output.transform.scale = ⟨1, 1⟩ → params.output.transform.offset = ⟨0, 0⟩ →
        params.output.doCapX = false →
        transformPointF32 params ⟨5452595/4194304, 0⟩ = some ⟨1258291/4194304, 0⟩
          ∧ transformPointF32 params ⟨-13421773/67108864, 0⟩
              = some ⟨13421773/16777216, 0⟩) := by
  obtain ⟨hfx, hfy⟩ := beforeCapOrWrapF32_isF32 params p q hq
  have key : ∀ c : ℚ, isF32 c →
      (1 < c → capOrWrapF32 false c = some (c - (⌊c⌋ : ℚ)))
      ∧ (-(2 : ℚ) ^ 24 ≤ c → c ≤ -1 → capOrWrapF32 false c = some (1 + c - (⌈c⌉ : ℚ)))
      ∧ (1 < c ∨ (-(2 : ℚ) ^ 24 ≤ c ∧ c ≤ -1) →
          ∃ (x : ℚ) (k : Int), capOrWrapF32 false c = some x ∧ x - c = (k : ℚ)) := by
    intro c hc
    refine ⟨capOrWrapF32_pos_exact c hc, capOrWrapF32_neg_exact c hc, ?_⟩
    rintro (h | ⟨h1, h2⟩)
    · exact ⟨_, -⌊c⌋, capOrWrapF32_pos_exact c hc h, by push_cast; ring⟩
    · exact ⟨_, 1 - ⌈c⌉, capOrWrapF32_neg_exact c hc h1 h2, by push_cast; ring⟩
  obtain ⟨r, hr, hrx, hry⟩ := transformPointF32_total params p q hq
  refine ⟨?_, ?_, ?_⟩
  · intro hcap
    rw [hcap] at hrx ⊢
    refine ⟨(key q.x hfx).1, (key q.x hfx).2.1, ?_, ?_⟩
    · intro h
      obtain ⟨x, k, hx, hk⟩ := (key q.x hfx).2.2 h
      exact ⟨x, k, hx, hk, r, hr, Option.some.inj (hrx.symm.trans hx)⟩
    · intro h1 h2
      obtain ⟨x, hx, hn, he⟩ := capOrWrapF32_neg_frac q.x h1 h2
      exact ⟨x, hx, hn, he, r, hr, Option.some.inj (hrx.symm.trans hx)⟩
  · intro hcap
    rw [hcap] at hry ⊢
    refine ⟨(key q.y hfy).1, (key q.y hfy).2.1, ?_, ?_⟩
    · intro h
      obtain ⟨y, k, hy, hk⟩ := (key q.y hfy).2.2 h
      exact ⟨y, k, hy, hk, r, hr, Option.some.inj (hry.symm.trans hy)⟩
    · intro h1 h2
      obtain ⟨y, hy, hn, he⟩ := capOrWrapF32_neg_frac q.y h1 h2
      exact ⟨y, hy, hn, he, r, hr, Option.some.inj (hry.symm.trans hy)⟩
  · intro hflx hfly hs ho hcap
    have hy0 : capOrWrapF32 params.output.doCapY 0 = some 0 :=
      capOrWrapF32_inside _ 0 le_rfl (by norm_num)
    constructor
    · have hb : beforeCapOrWrapF32 params ⟨5452595/4194304, 0⟩
          = some ⟨5452595/4194304, 0⟩ :=
        beforeCapOrWrapF32_unit params _ (3355443/4194304) _ (-1/2) 0 hflx hfly hs ho
          (round32_val _ _ 3355443 (-22) (by norm_num) (by norm_num) (by norm_num)
            (by norm_num) (by norm_num))
          (round32_val _ _ 5452595 (-22) (by norm_num) (by norm_num) (by norm_num)
            (by norm_num) (by norm_num))
          round32_neg_half round32_neg_half_add
      have hfl : ⌊(5452595/4194304 : ℚ)⌋ = 1 := by rw [Int.floor_eq_iff]; norm_num
      have hw : capOrWrapF32 params.output.doCapX (5452595/4194304)
          = some (1258291/4194304) := by
        rw [hcap, capOrWrapF32_pos_exact _ (isF32_of_eq _ 5452595 (-22) (by norm_num)
          (by norm_num) (by norm_num) (by norm_num)) (by norm_num), hfl]
        norm_num
      exact transformPointF32_eval params _ _ _ _ hb hw hy0
    · have hb : beforeCapOrWrapF32 params ⟨-13421773/67108864, 0⟩
          = some ⟨-3355443/16777216, 0⟩ :=
        beforeCapOrWrapF32_unit params _ (-11744051/16777216) _ (-1/2) 0 hflx hfly hs ho
          (round32_eval_neg _ _ (-1) (-24) (-11744051) (by norm_num) (by norm_num)
            (by norm_num)
            (by
              rw [roundHalfEven_of_floor _ (-11744052) (by rw [Int.floor_eq_iff]; norm_num)]
              norm_num)
            (by norm_num) (abs_lt.mpr ⟨by norm_num, by norm_num⟩))
          (round32_val _ _ (-3355443) (-24) (by norm_num) (by norm_num) (by norm_num)
            (by norm_num) (by norm_num))
          round32_neg_half round32_neg_half_add
      have hce : ⌈(-3355443/16777216 : ℚ)⌉ = 0 := by rw [Int.ceil_eq_iff]; norm_num
      have hw : capOrWrapF32 params.output.doCapX (-3355443/16777216)
          = some (13421773/16777216) := by
        rw [hcap]
        exact capOrWrapF32_neg_eval _ (13421773/16777216) _ (by norm_num)
          (round32_val _ _ 13421773 (-24) (by norm_num) (by norm_num) (by norm_num)
            (by norm_num) (by norm_num))
          (round32_val _ _ 13421773 (-24) (by norm_num) (by norm_num) (by norm_num)
            (by norm_num) (by rw [hce]; norm_num))
      exact transformPointF32_eval params _ _ _ _ hb hw hy0

theorem beforeCapOrWrapF32_thirteen_tenths :
    beforeCapOrWrapF32 defaultParams ⟨5452595/4194304, 0⟩ = some ⟨5452595/4194304, 0⟩ :=
  beforeCapOrWrapF32_unit defaultParams _ (3355443/4194304) _ (-1/2) 0 rfl rfl rfl rfl
    (round32_val _ _ 3355443 (-22) (by norm_num) (by norm_num) (by norm_num)
      (by norm_num) (by norm_num))
    (round32_val _ _ 5452595 (-22) (by norm_num) (by norm_num) (by norm_num)
      (by norm_num) (by norm_num))
    round32_neg_half round32_neg_half_add

/-- C4 (witness): the default configuration at the input `(1.3f, 0)`, whose x coordinate
reaches the wrap step as `1.3f`, and at the input `(-0.2f, 0)`. -/
theorem wrap_exact_ranges_witness :
    capOrWrapF32 defaultParams.output.doCapX (5452595/4194304)
        = some (5452595/4194304 - (⌊(5452595/4194304 : ℚ)⌋ : ℚ))
      ∧ transformPointF32 defaultParams ⟨5452595/4194304, 0⟩ = some ⟨1258291/4194304, 0⟩
      ∧ transformPointF32 defaultParams ⟨-13421773/67108864, 0⟩
          = some ⟨13421773/16777216, 0⟩ :=
  have h := wrap_exact_ranges defaultParams ⟨5452595/4194304, 0⟩ ⟨5452595/4194304, 0⟩
    beforeCapOrWrapF32_thirteen_tenths
  ⟨(h.1 rfl).1 (by norm_num), (h.2.2 rfl rfl rfl rfl rfl).1, (h.2.2 rfl rfl rfl rfl rfl).2⟩

end ofxIlda
